import Mathlib

/-!
Verification of the `xcss-vendor-sources` registry build pipeline.

The pipeline (the script embedded in the repository) is a Node.js program that
loads a directory of JSON files into a nested object tree, pivots key axes with
`inverseNestedObject`, folds years into cumulative snapshots with `deepMerge`,
and emits snapshot files plus a manifest (`index.json`).

We shallowly embed the JavaScript data model: a JSON-like value type `JVal`
whose objects are association lists in insertion order.  JavaScript
enumerates integer-like keys (such as year folder names) in ascending
numeric order before other keys; this reordering is not modelled, and every
concrete input below lists its integer-like keys in ascending order so the
two enumeration orders coincide.  The one observable divergence this leaves
is the byte order of integer-like keys inside the serialized `index.json`
(the manifest object itself, which the claims read, is unaffected); no
theorem below inspects that serialized string.  JavaScript `undefined` is
modelled as `Option.none` at the places it can occur (the group-rename
reduce accumulator).  Thrown `TypeError`s are modelled with
`Except String`.
-/

set_option autoImplicit false

namespace XcssVendor

/-- A JSON-like JavaScript value: null, boolean, number, string, array or
object.  Objects are association lists of fields in insertion order. -/
inductive JVal where
  | null : JVal
  | bool (b : Bool) : JVal
  | num (n : Int) : JVal
  | str (s : String) : JVal
  | arr (elems : List JVal) : JVal
  | obj (fields : List (String × JVal)) : JVal

/-- A JavaScript object, as its list of fields. -/
abbrev JObj := List (String × JVal)

/-- The keys of an association list, in order. -/
def keysOf {α : Type} (l : List (String × α)) : List String :=
  l.map Prod.fst

/-- Property read `o[k]` on an object: first binding of the key wins. -/
def getProp : JObj → String → Option JVal
  | [], _ => none
  | (k', v) :: rest, k => if k' = k then some v else getProp rest k

/-- Property write `o[k] = v` on an object: replaces the first binding of the
key in place, or appends a new binding at the end (JavaScript insertion
order). -/
def setProp : JObj → String → JVal → JObj
  | [], k, v => [(k, v)]
  | (k', v') :: rest, k, v =>
    if k' = k then (k, v) :: rest else (k', v') :: setProp rest k v

/-- The decimal digit character for `d < 10`. -/
def digitChar : Nat → Char
  | 0 => '0' | 1 => '1' | 2 => '2' | 3 => '3' | 4 => '4'
  | 5 => '5' | 6 => '6' | 7 => '7' | 8 => '8' | 9 => '9'
  | _ => '?'

/-- Decimal digit list of a natural number (most significant first), with
explicit fuel so that the definition evaluates by kernel reduction. -/
def natToDecAux : Nat → Nat → List Char
  | 0, _ => []
  | fuel + 1, n =>
    if n < 10 then [digitChar n]
    else natToDecAux fuel (n / 10) ++ [digitChar (n % 10)]

/-- Decimal string of a natural number, the embedding of JavaScript
`Number.prototype.toString` / `String(n)` for the naturals used here. -/
def natToDec (n : Nat) : String :=
  ⟨natToDecAux (n + 1) n⟩

/-- `JVal.arr` with indices as string keys, used for `for...in` enumeration
over arrays. -/
def indexEntries (elems : List JVal) : List (String × JVal) :=
  (elems.zip (List.range elems.length)).map (fun p => (natToDec p.2, p.1))

/-- The own enumerable entries a `for...in` loop visits, with their values:
object fields in insertion order, array elements under their index keys,
string characters under their index keys, nothing for primitives (including
`null`). -/
def enumEntries : JVal → List (String × JVal)
  | .obj fields => fields
  | .arr elems => indexEntries elems
  | .str s => (s.data.zip (List.range s.length)).map
      (fun p => (natToDec p.2, .str ⟨[p.1]⟩))
  | _ => []

/-- The keys a `for...in` loop visits (`Object.keys` for objects). -/
def enumKeys (v : JVal) : List String :=
  keysOf (enumEntries v)

/-- JavaScript `typeof v === 'object' && v !== null`: true for objects and
arrays, false for `null` and primitives. -/
def jsObjLike : JVal → Bool
  | .obj _ => true
  | .arr _ => true
  | _ => false

/-- The `isObject` probe used by `deepMerge`:
`typeof v === 'object' && v !== null && !Array.isArray(v)`. -/
def isMergeObject : JVal → Bool
  | .obj _ => true
  | _ => false

/-- General member access `v[k]` for the member reads the pipeline performs
(objects by key, arrays by decimal index). -/
def getMember : JVal → String → Option JVal
  | .obj fields, k => getProp fields k
  | .arr elems, k => k.toNat?.bind elems.get?
  | _, _ => none

/-- Decimal string of an integer, as JavaScript prints JSON numbers. -/
def intToDec : Int → String
  | .ofNat n => natToDec n
  | .negSucc n => "-" ++ natToDec (n + 1)

/-- The lowercase hexadecimal digit character for `d < 16`. -/
def hexDigitChar (d : Nat) : Char :=
  if d < 10 then digitChar d
  else if d = 10 then 'a'
  else if d = 11 then 'b'
  else if d = 12 then 'c'
  else if d = 13 then 'd'
  else if d = 14 then 'e'
  else if d = 15 then 'f'
  else '?'

/-- JSON string escaping as performed by `JSON.stringify`: quote, backslash
and control characters are escaped, everything else passes through. -/
def jsonEscapeChar (c : Char) : List Char :=
  if c = '"' then ['\\', '"']
  else if c = '\\' then ['\\', '\\']
  else if c = '\n' then ['\\', 'n']
  else if c = '\t' then ['\\', 't']
  else if c = '\r' then ['\\', 'r']
  else if c = '\x08' then ['\\', 'b']
  else if c = '\x0c' then ['\\', 'f']
  else if c.toNat < 32 then
    ['\\', 'u', '0', '0', hexDigitChar (c.toNat / 16), hexDigitChar (c.toNat % 16)]
  else [c]

/-- A JSON string literal: `"` + escaped characters + `"`. -/
def jsonQuote (s : String) : String :=
  ⟨'"' :: (s.data.flatMap jsonEscapeChar ++ ['"'])⟩

/-- Interleave a separator between strings and concatenate. -/
def joinComma : List String → String
  | [] => ""
  | [s] => s
  | s :: rest => s ++ "," ++ joinComma rest

mutual

/-- Embedding of `JSON.stringify` (no indentation): fields in enumeration
order, no whitespace. -/
def jsonStringify : JVal → String
  | .null => "null"
  | .bool true => "true"
  | .bool false => "false"
  | .num n => intToDec n
  | .str s => jsonQuote s
  | .arr elems => "[" ++ joinComma (jsonStringifyList elems) ++ "]"
  | .obj fields => "\x7b" ++ joinComma (jsonStringifyFields fields) ++ "\x7d"

/-- Serializations of the elements of an array. -/
def jsonStringifyList : List JVal → List String
  | [] => []
  | v :: rest => jsonStringify v :: jsonStringifyList rest

/-- Serializations `"key":value` of the fields of an object. -/
def jsonStringifyFields : List (String × JVal) → List String
  | [] => []
  | (k, v) :: rest => (jsonQuote k ++ ":" ++ jsonStringify v) :: jsonStringifyFields rest

end

/-! ## Axis pivot: `inverseNestedObject`

The source iterates the first-level keys, skips values that are not
`typeof 'object'` (or are `null`) with a diagnostic, then iterates the
second-level keys and assigns `inverted[level2Key][level1Key] = value`,
initializing `inverted[level2Key]` to `{}` when absent. -/

/-- The current fields of `inverted[level2Key]`, `[]` when absent
(the `if (!inverted[level2Key]) inverted[level2Key] = {}` initialization). -/
def curFields (inverted : JObj) (level2Key : String) : JObj :=
  match getProp inverted level2Key with
  | some (.obj fields) => fields
  | _ => []

/-- One inner assignment `inverted[level2Key][level1Key] = value`. -/
def invInsert (inverted : JObj) (level1Key : String)
    (entry : String × JVal) : JObj :=
  setProp inverted entry.1 (.obj (setProp (curFields inverted entry.1) level1Key entry.2))

/-- The inner loop over the entries of one first-level value. -/
def invInner (inverted : JObj) (level1Key : String)
    (entries : List (String × JVal)) : JObj :=
  entries.foldl (fun acc e => invInsert acc level1Key e) inverted

/-- The outer loop over the first-level entries. -/
def invOuter (inverted : JObj) (entries : List (String × JVal)) : JObj :=
  entries.foldl
    (fun acc e =>
      if jsObjLike e.2 then invInner acc e.1 (enumEntries e.2) else acc)
    inverted

/-- Embedding of `inverseNestedObject`: switches the order of the first and
second level nested keys; first-level values that are not object-like are
skipped (with a console diagnostic in the source). -/
def inverseNestedObject (original : JVal) : JObj :=
  invOuter [] (enumEntries original)

/-! ## Deep merge

`deepMerge(target, ...sources)` iterates the enumerable keys of each source
in turn.  If both values are non-array objects it recurses; if only the
source value is, the target receives a deep copy (`JSON.parse(JSON.stringify(...))`,
which on these values is the identity); otherwise the source value is
assigned, replacing whatever the target had. -/

mutual

/-- The body of `deepMerge` for one source key: if both values are non-array
objects, recurse; if only the source value is, assign a deep copy (which in
this pure embedding is the value itself); otherwise assign the source value,
overwriting the target value. -/
def deepMergeStep : JObj → String → JVal → JObj
  | target, k, .obj sfields =>
    (match getProp target k with
     | some (.obj tfields) => setProp target k (.obj (deepMergeEntries tfields sfields))
     | _ => setProp target k (.obj sfields))
  | target, k, sv => setProp target k sv

/-- Embedding of the `for (const key in source)` loop of `deepMerge`, over the
already-enumerated source entries. -/
def deepMergeEntries : JObj → List (String × JVal) → JObj
  | target, [] => target
  | target, (k, sv) :: rest => deepMergeEntries (deepMergeStep target k sv) rest

end

/-- `deepMerge(target, source)` for one defined source value. -/
def deepMergeV (target : JObj) (source : JVal) : JObj :=
  deepMergeEntries target (enumEntries source)

/-- `deepMerge(target, source)` where the source may be `undefined`
(a `for...in` over `undefined` performs no iterations). -/
def deepMergeOpt (target : JObj) (source : Option JVal) : JObj :=
  match source with
  | none => target
  | some v => deepMergeV target v

/-- `deepMerge(target, ...sources)`: the sources are folded left to right,
matching the source's recursion on the shifted source list. -/
def deepMergeMany : JObj → List JVal → JObj
  | target, [] => target
  | target, source :: rest => deepMergeMany (deepMergeV target source) rest

/-! ## The `switched` pivot cascade

The main script re-indexes the loaded tree with three nested pivots and one
extra, conditional pivot:

for each platform entry `(k0, v0)` of the tree, for each `(k1, v1)` of
`inverseNestedObject(v0)`, for each `(k2, v2)` of `inverseNestedObject(v1)`,
for each `(k3, v3)` of `inverseNestedObject(v2)`, the innermost value is
`inverseNestedObject(v3)` when `k2 === "values.json"` and `v3` otherwise. -/

/-- A fold of `o[k] = f k v` assignments over a list of entries, the shape of
every `reduce` accumulator in the `switched` cascade. -/
def foldSet (f : String → JVal → JVal) (init : JObj)
    (entries : List (String × JVal)) : JObj :=
  entries.foldl (fun acc e => setProp acc e.1 (f e.1 e.2)) init

/-- The innermost `reduce`: builds `o3` from `inverseNestedObject(v2)`,
applying the extra pivot exactly when the enclosing key `k2` is
`"values.json"`. -/
def switchedLevel3 (k2 : String) (v2 : JVal) : JObj :=
  foldSet
    (fun _ v3 => if k2 = "values.json" then .obj (inverseNestedObject v3) else v3)
    [] (inverseNestedObject v2)

/-- The `o2` reduce over `inverseNestedObject(v1)`. -/
def switchedLevel2 (v1 : JVal) : JObj :=
  foldSet (fun k2 v2 => .obj (switchedLevel3 k2 v2)) [] (inverseNestedObject v1)

/-- The `o1` reduce over `inverseNestedObject(v0)`. -/
def switchedLevel1 (v0 : JVal) : JObj :=
  foldSet (fun _ v1 => .obj (switchedLevel2 v1)) [] (inverseNestedObject v0)

/-- The `switched` tree: the `o0` reduce over the entries of the loaded
object tree. -/
def switchedOf (objectTree : JObj) : JObj :=
  foldSet (fun _ v0 => .obj (switchedLevel1 v0)) [] objectTree

/-! ## Snapshot builder -/

/-- The fixed group-file rename lookup (`filemaps` in the source). -/
def filemaps : List (String × String) :=
  [("atrules.json", "atrules"), ("attributes.json", "attributes"),
   ("classes.json", "classes"), ("elements.json", "elements"),
   ("values.json", "values")]

/-- The error signalled when JavaScript sets a property on `undefined`. -/
def undefinedSetError : String :=
  "TypeError: Cannot set properties of undefined"

/-- One step of the group-rename `reduce`.  The source callback only returns
the accumulator inside `if (filemaps[group])`; on an unknown group it falls
through and returns `undefined` (`none`).  A later known group then attempts
`undefined[...] = v2` and throws. -/
def renameStep (acc : Option JObj) (entry : String × JVal) :
    Except String (Option JObj) :=
  match filemaps.lookup entry.1 with
  | some newName =>
    match acc with
    | some o2 => .ok (some (setProp o2 newName entry.2))
    | none => .error undefinedSetError
  | none => .ok none

/-- The group-rename `reduce` loop; a thrown `TypeError` aborts it. -/
def renameFold (acc : Option JObj) :
    List (String × JVal) → Except String (Option JObj)
  | [] => .ok acc
  | entry :: rest =>
    match renameStep acc entry with
    | .error e => .error e
    | .ok acc2 => renameFold acc2 rest

/-- The group-rename `reduce` over one year's entries, starting from `{}`. -/
def renameReduce (entries : List (String × JVal)) : Except String (Option JObj) :=
  renameFold (some []) entries

/-- `s.padStart(4, "0")`. -/
def padStart4 (s : String) : String :=
  if s.length ≥ 4 then s else ⟨List.replicate (4 - s.length) '0' ++ s.data⟩

/-- The `from`-anchored snapshot filename for a platform and year. -/
def fromFileName (platform year : String) : String :=
  "platform/" ++ platform ++ "--from-" ++ padStart4 year ++ ".json"

/-- The `last`-anchored snapshot filename for a platform and 0-based index. -/
def lastFileName (platform : String) (index : Nat) : String :=
  "platform/" ++ platform ++ "--last-" ++ padStart4 (natToDec (index + 1)) ++ ".json"

/-- The manifest key `"<n> year"` for a 0-based index. -/
def lastLabel (index : Nat) : String :=
  natToDec (index + 1) ++ " year"

/-- The per-platform builder state: the running accumulator `o1`, the `from`
and `last` manifest sub-mappings, and the file writes made so far (in
order). -/
structure PlatState where
  o1 : JObj
  fromMap : JObj
  lastMap : JObj
  writes : List (String × String)

/-- One step of the per-platform year loop: deep-merge the renamed year
payload into the accumulator, then record the two filenames in the manifest
and write the serialized accumulator under both. -/
def platStep (platform : String) (years : JVal) (st : PlatState)
    (iy : Nat × String) : Except String PlatState :=
  match getMember years iy.2 with
  | none => .error "TypeError: Cannot convert undefined or null to object"
  | some yearVal =>
    match renameReduce (enumEntries yearVal) with
    | .error e => .error e
    | .ok renamed =>
      let o1 := deepMergeOpt st.o1 (renamed.map .obj)
      let fromfilename := fromFileName platform iy.2
      let lastfilename := lastFileName platform iy.1
      let content := jsonStringify (.obj o1)
      .ok { o1 := o1
            fromMap := setProp st.fromMap iy.2 (.str fromfilename)
            lastMap := setProp st.lastMap (lastLabel iy.1) (.str lastfilename)
            writes := st.writes ++ [(fromfilename, content), (lastfilename, content)] }

/-- The per-platform year loop body; a thrown error aborts the run. -/
def platFold (platform : String) (years : JVal) (st : PlatState) :
    List (Nat × String) → Except String PlatState
  | [] => .ok st
  | iy :: rest =>
    match platStep platform years st iy with
    | .error e => .error e
    | .ok st2 => platFold platform years st2 rest

/-- The per-platform year loop: `Object.keys(years).reverse().reduce(...)`,
with the reduce's `index` made explicit via `List.enum`. -/
def platBuild (platform : String) (years : JVal) : Except String PlatState :=
  platFold platform years { o1 := [], fromMap := [], lastMap := [], writes := [] }
    (enumKeys years).reverse.enum

/-- One platform of the `Object.entries(switched).forEach` loop: build the
platform's snapshots, then record its manifest entry and append its file
writes. -/
def buildStepAcc (acc : JObj × List (String × String)) (e : String × JVal) :
    Except String (JObj × List (String × String)) :=
  match platBuild e.1 e.2 with
  | .error err => .error err
  | .ok st =>
    .ok (setProp acc.1 e.1
           (.obj [("from", .obj st.fromMap), ("last", .obj st.lastMap)]),
         acc.2 ++ st.writes)

/-- The platform loop body; a thrown error aborts the run. -/
def buildFold (acc : JObj × List (String × String)) :
    JObj → Except String (JObj × List (String × String))
  | [] => .ok acc
  | e :: rest =>
    match buildStepAcc acc e with
    | .error err => .error err
    | .ok acc2 => buildFold acc2 rest

/-- The whole `Object.entries(switched).forEach` loop: returns the manifest
object (`indexmap`) and the ordered file writes of all platforms. -/
def buildAll (switched : JObj) : Except String (JObj × List (String × String)) :=
  buildFold ([], []) switched

/-- One pipeline run: pivot the loaded registry tree, build all platform
snapshots and the manifest, then lay the writes over the site file tree and
add `index.json`.  Returns the final file map and the manifest object.
This is `main` after the two directory loads
(`objectTree = createJsonObjectTree(REGISTRY)`,
`siteFiles = createFileTree(SITE)`); publishing to disk is I/O glue. -/
def runPipeline (objectTree : JObj) (siteFiles : List (String × JVal)) :
    Except String (List (String × JVal) × JObj) :=
  match buildAll (switchedOf objectTree) with
  | .error e => .error e
  | .ok (indexmap, writes) =>
    let files := writes.foldl (fun ff w => setProp ff w.1 (.str w.2)) siteFiles
    .ok (setProp files "index.json" (.str (jsonStringify (.obj indexmap))), indexmap)

/-! ## Tree loaders

`createJsonObjectTree` walks a directory, skipping entries whose name starts
with a dot, recursing into directories (keeping only non-empty subtrees) and
parsing `.json` files (skipping files that fail to parse).
`createFileTree` has no dot filter at its top level, captures every file's
content verbatim, and loads subdirectories through `createJsonObjectTree`.

The directory tree is modelled explicitly; JSON parsing is a parameter
`parse` returning `none` on a parse error. -/

/-- A filesystem entry: a file with raw string content, or a directory of
named entries (in `readdir` order). -/
inductive FSEntry where
  | file (content : String) : FSEntry
  | dir (entries : List (String × FSEntry)) : FSEntry

/-- The embedding of `item.startsWith(".")`: the first character is a dot. -/
def startsWithDot (s : String) : Bool :=
  match s.data with
  | [] => false
  | c :: _ => c = '.'

/-- The embedding of `item.endsWith(".json")`. -/
def jsonExt (s : String) : Bool :=
  ".json".data.isSuffixOf s.data

mutual

/-- The loop of `createJsonObjectTree` over a directory's entries, carrying
the tree built so far.  Entries whose name starts with a dot are skipped
entirely. -/
def jsonTreeGo (parse : String → Option JVal) (tree : JObj) :
    List (String × FSEntry) → JObj
  | [] => tree
  | (item, e) :: rest =>
    if startsWithDot item then jsonTreeGo parse tree rest
    else
      match jsonTreeEntry parse item e with
      | some v => jsonTreeGo parse (setProp tree item v) rest
      | none => jsonTreeGo parse tree rest

/-- The value contributed by one non-hidden entry: a directory becomes its
recursively built subtree when non-empty; a `.json` file becomes its parsed
content when it parses; everything else is skipped. -/
def jsonTreeEntry (parse : String → Option JVal) (item : String) :
    FSEntry → Option JVal
  | .dir sub =>
    let subTree := jsonTreeGo parse [] sub
    if subTree.isEmpty then none else some (.obj subTree)
  | .file content =>
    if jsonExt item then parse content else none

end

/-- Embedding of `createJsonObjectTree` on a directory's entries. -/
def createJsonObjectTree (parse : String → Option JVal)
    (entries : List (String × FSEntry)) : JObj :=
  jsonTreeGo parse [] entries

/-- One entry of the `createFileTree` loop: a file's content is captured
verbatim (no dot filter, no extension filter), a directory is loaded through
`createJsonObjectTree` and kept when non-empty. -/
def fileTreeStep (parse : String → Option JVal) (tree : List (String × JVal))
    (e : String × FSEntry) : List (String × JVal) :=
  match e.2 with
  | .dir sub =>
    let subTree := createJsonObjectTree parse sub
    if subTree.isEmpty then tree else setProp tree e.1 (.obj subTree)
  | .file content => setProp tree e.1 (.str content)

/-- Embedding of `createFileTree` (the site-asset variant): no hidden-entry
filter, files captured verbatim at this level, directories loaded through
`createJsonObjectTree` and kept when non-empty. -/
def createFileTree (parse : String → Option JVal)
    (entries : List (String × FSEntry)) : List (String × JVal) :=
  entries.foldl (fileTreeStep parse) []

/-! ## Basic lemmas about property access -/

theorem getProp_setProp_self (l : JObj) (k : String) (v : JVal) :
    getProp (setProp l k v) k = some v := by
  induction l with
  | nil => simp [setProp, getProp]
  | cons e rest ih =>
    obtain ⟨k', v'⟩ := e
    by_cases h : k' = k <;> simp [setProp, getProp, h, ih]

theorem getProp_setProp_ne (l : JObj) (k k' : String) (v : JVal)
    (h : k' ≠ k) : getProp (setProp l k v) k' = getProp l k' := by
  have hne : k ≠ k' := Ne.symm h
  induction l with
  | nil => simp [setProp, getProp, hne]
  | cons e rest ih =>
    obtain ⟨k0, v0⟩ := e
    by_cases h0 : k0 = k
    · subst h0
      simp [setProp, getProp, hne]
    · simp [setProp, h0, getProp, ih]

theorem getProp_eq_none_of_notMem {l : JObj} {k : String}
    (h : k ∉ keysOf l) : getProp l k = none := by
  induction l with
  | nil => rfl
  | cons e rest ih =>
    obtain ⟨k0, v0⟩ := e
    simp only [keysOf, List.map_cons, List.mem_cons, not_or] at h
    have h0 : k0 ≠ k := fun h2 => h.1 h2.symm
    simp [getProp, h0, ih (by simpa [keysOf] using h.2)]

theorem mem_of_getProp_some {l : JObj} {k : String} {v : JVal} :
    getProp l k = some v → (k, v) ∈ l := by
  induction l with
  | nil => intro h; simp [getProp] at h
  | cons e rest ih =>
    obtain ⟨k0, v0⟩ := e
    intro h
    by_cases h0 : k0 = k
    · subst h0
      rw [getProp, if_pos rfl] at h
      obtain rfl := Option.some.inj h
      exact List.mem_cons_self _ _
    · simp only [getProp, if_neg h0] at h
      exact List.mem_cons_of_mem _ (ih h)

theorem getProp_of_mem {l : JObj} {k : String} {v : JVal}
    (hmem : (k, v) ∈ l) (hnd : (keysOf l).Nodup) : getProp l k = some v := by
  induction l with
  | nil => simp at hmem
  | cons e rest ih =>
    obtain ⟨k0, v0⟩ := e
    simp only [keysOf, List.map_cons, List.nodup_cons] at hnd
    rcases List.mem_cons.mp hmem with h | h
    · obtain ⟨h1, h2⟩ := Prod.mk.injEq .. ▸ h
      subst h1; subst h2
      simp [getProp]
    · have hk : k0 ≠ k := by
        rintro rfl
        exact hnd.1 (by simpa using List.mem_map_of_mem Prod.fst h)
      simp only [getProp, if_neg hk]
      exact ih h (by simpa [keysOf] using hnd.2)

theorem setProp_eq_append {l : JObj} {k : String} (v : JVal)
    (h : k ∉ keysOf l) : setProp l k v = l ++ [(k, v)] := by
  induction l with
  | nil => rfl
  | cons e rest ih =>
    obtain ⟨k0, v0⟩ := e
    simp only [keysOf, List.map_cons, List.mem_cons, not_or] at h
    have h0 : k0 ≠ k := fun h2 => h.1 h2.symm
    simp [setProp, h0, ih (by simpa [keysOf] using h.2)]

theorem keysOf_setProp (l : JObj) (k : String) (v : JVal) :
    keysOf (setProp l k v) = if k ∈ keysOf l then keysOf l else keysOf l ++ [k] := by
  induction l with
  | nil => simp [setProp, keysOf]
  | cons e rest ih =>
    obtain ⟨k0, v0⟩ := e
    by_cases h0 : k0 = k
    · subst h0
      simp [setProp, keysOf]
    · have hne : ¬ k = k0 := fun h2 => h0 h2.symm
      simp only [setProp, if_neg h0, keysOf, List.map_cons] at *
      rw [ih]
      by_cases h1 : k ∈ List.map Prod.fst rest
      · simp [h1, hne]
      · simp [h1, hne]

theorem nodup_keysOf_setProp {l : JObj} (k : String) (v : JVal)
    (h : (keysOf l).Nodup) : (keysOf (setProp l k v)).Nodup := by
  rw [keysOf_setProp]
  by_cases hmem : k ∈ keysOf l
  · simpa [hmem]
  · rw [if_neg hmem]
    refine List.Nodup.append h (List.nodup_singleton k) ?_
    intro a ha h2
    simp only [List.mem_singleton] at h2
    subst h2
    exact hmem ha

theorem mem_keysOf_setProp_self (l : JObj) (k : String) (v : JVal) :
    k ∈ keysOf (setProp l k v) := by
  rw [keysOf_setProp]
  by_cases hmem : k ∈ keysOf l <;> simp [hmem]

theorem mem_keysOf_setProp_of_mem {l : JObj} {k' : String} (k : String) (v : JVal)
    (h : k' ∈ keysOf l) : k' ∈ keysOf (setProp l k v) := by
  rw [keysOf_setProp]
  by_cases hmem : k ∈ keysOf l <;> simp [hmem, h]

theorem getProp_append_of_notMem {l₁ : JObj} (l₂ : JObj) {k : String}
    (h : k ∉ keysOf l₁) : getProp (l₁ ++ l₂) k = getProp l₂ k := by
  induction l₁ with
  | nil => rfl
  | cons e rest ih =>
    obtain ⟨k0, v0⟩ := e
    simp only [keysOf, List.map_cons, List.mem_cons, not_or] at h
    have h0 : k0 ≠ k := fun h2 => h.1 h2.symm
    simp [getProp, h0, ih (by simpa [keysOf] using h.2)]

theorem setProp_append_last {l : JObj} {k : String} (x y : JVal)
    (h : k ∉ keysOf l) : setProp (l ++ [(k, x)]) k y = l ++ [(k, y)] := by
  induction l with
  | nil => simp [setProp]
  | cons e rest ih =>
    obtain ⟨k0, v0⟩ := e
    simp only [keysOf, List.map_cons, List.mem_cons, not_or] at h
    have h0 : k0 ≠ k := fun h2 => h.1 h2.symm
    simp [setProp, h0, ih (by simpa [keysOf] using h.2)]

/-! ## The `foldSet` closed form -/

theorem foldSet_append_of_disjoint (f : String → JVal → JVal) :
    ∀ (entries : List (String × JVal)) (init : JObj),
    (keysOf entries).Nodup → (∀ k ∈ keysOf entries, k ∉ keysOf init) →
    foldSet f init entries = init ++ entries.map (fun e => (e.1, f e.1 e.2))
  | [], init, _, _ => by simp [foldSet]
  | (k, v) :: rest, init, hnd, hdisj => by
    simp only [keysOf, List.map_cons, List.nodup_cons] at hnd
    have hkinit : k ∉ keysOf init := hdisj k (by simp [keysOf])
    have hstep : setProp init k (f k v) = init ++ [(k, f k v)] :=
      setProp_eq_append _ hkinit
    have hrest : ∀ k' ∈ keysOf rest, k' ∉ keysOf (init ++ [(k, f k v)]) := by
      intro k' hk' hmem
      rw [keysOf, List.map_append] at hmem
      rcases List.mem_append.mp hmem with h | h
      · refine hdisj k' ?_ h
        simp only [keysOf, List.map_cons, List.mem_cons]
        exact Or.inr hk'
      · simp only [List.map_cons, List.map_nil, List.mem_singleton] at h
        subst h
        exact hnd.1 hk'
    calc foldSet f init ((k, v) :: rest)
        = foldSet f (init ++ [(k, f k v)]) rest := by
          simp only [foldSet, List.foldl_cons, hstep]
      _ = init ++ [(k, f k v)] ++ rest.map (fun e => (e.1, f e.1 e.2)) :=
          foldSet_append_of_disjoint f rest _ (by simpa [keysOf] using hnd.2) hrest
      _ = init ++ ((k, v) :: rest).map (fun e => (e.1, f e.1 e.2)) := by
          simp

theorem foldSet_eq_map {entries : List (String × JVal)}
    (f : String → JVal → JVal) (hnd : (keysOf entries).Nodup) :
    foldSet f [] entries = entries.map (fun e => (e.1, f e.1 e.2)) := by
  simpa using foldSet_append_of_disjoint f entries [] hnd (by simp [keysOf])

/-! ## Injectivity of the decimal rendering -/

/-- Reading decimal digit characters back into a number. -/
def decFold (a : Nat) (cs : List Char) : Nat :=
  cs.foldl (fun acc c => acc * 10 + (c.toNat - 48)) a

theorem digitChar_toNat {d : Nat} (h : d < 10) : (digitChar d).toNat = 48 + d := by
  interval_cases d <;> rfl

theorem decFold_natToDecAux :
    ∀ (fuel n : Nat), n < fuel → ∀ a,
      decFold a (natToDecAux fuel n) =
        a * 10 ^ (natToDecAux fuel n).length + n := by
  intro fuel
  induction fuel with
  | zero => intro n h; omega
  | succ fuel ih =>
    intro n h a
    by_cases h10 : n < 10
    · have : (digitChar n).toNat - 48 = n := by rw [digitChar_toNat h10]; omega
      simp [natToDecAux, h10, decFold, this]
    · have hdiv : n / 10 < fuel := by
        have h1 : n / 10 < n := Nat.div_lt_self (by omega) (by omega)
        omega
      have hmod : (digitChar (n % 10)).toNat - 48 = n % 10 := by
        rw [digitChar_toNat (Nat.mod_lt _ (by omega))]; omega
      simp only [natToDecAux, if_neg h10, decFold, List.foldl_append,
        List.foldl_cons, List.foldl_nil, List.length_append, List.length_cons,
        List.length_nil]
      have hIH := ih _ hdiv a
      simp only [decFold] at hIH
      rw [hIH, hmod]
      have := Nat.div_add_mod n 10
      ring_nf
      omega

theorem natToDec_inj {n m : Nat} (h : natToDec n = natToDec m) : n = m := by
  have hdata : natToDecAux (n + 1) n = natToDecAux (m + 1) m := by
    have := congrArg String.data h
    simpa [natToDec] using this
  have h1 := decFold_natToDecAux (n + 1) n (Nat.lt_succ_self n) 0
  have h2 := decFold_natToDecAux (m + 1) m (Nat.lt_succ_self m) 0
  rw [hdata] at h1
  simp only [Nat.zero_mul] at h1 h2
  omega

theorem lastLabel_inj {i j : Nat} (h : lastLabel i = lastLabel j) : i = j := by
  have hdata := congrArg String.data h
  simp only [lastLabel, String.data_append] at hdata
  have : (natToDec (i + 1)).data = (natToDec (j + 1)).data :=
    List.append_cancel_right hdata
  have : natToDec (i + 1) = natToDec (j + 1) := String.ext this
  have := natToDec_inj this
  omega

/-! ## Lemmas about the pivot -/

theorem keysOf_invInsert_mono {inv : JObj} {k' : String} (k1 : String)
    (e : String × JVal) (h : k' ∈ keysOf inv) :
    k' ∈ keysOf (invInsert inv k1 e) :=
  mem_keysOf_setProp_of_mem _ _ h

theorem keysOf_invInner_mono {k' : String} (k1 : String) :
    ∀ (entries : List (String × JVal)) (inv : JObj),
    k' ∈ keysOf inv → k' ∈ keysOf (invInner inv k1 entries)
  | [], _, h => h
  | e :: rest, inv, h =>
    keysOf_invInner_mono k1 rest (invInsert inv k1 e)
      (keysOf_invInsert_mono k1 e h)

theorem keysOf_invOuter_mono {k' : String} :
    ∀ (entries : List (String × JVal)) (inv : JObj),
    k' ∈ keysOf inv → k' ∈ keysOf (invOuter inv entries)
  | [], _, h => h
  | e :: rest, inv, h => by
    simp only [invOuter, List.foldl_cons]
    by_cases ho : jsObjLike e.2
    · simpa [invOuter, ho] using
        keysOf_invOuter_mono rest _ (keysOf_invInner_mono e.1 _ inv h)
    · simpa [invOuter, ho] using keysOf_invOuter_mono rest inv h

theorem keysOf_invInner_establish {k2 : String} (k1 : String) :
    ∀ (entries : List (String × JVal)) (inv : JObj),
    k2 ∈ keysOf entries → k2 ∈ keysOf (invInner inv k1 entries)
  | [], _, h => by simp [keysOf] at h
  | (ke, ve) :: rest, inv, h => by
    simp only [keysOf, List.map_cons, List.mem_cons] at h
    rcases h with h1 | h1
    · subst h1
      exact keysOf_invInner_mono k1 rest _
        (by simpa [invInsert] using mem_keysOf_setProp_self inv k2 _)
    · exact keysOf_invInner_establish k1 rest _ h1

theorem keysOf_invOuter_establish {k1 k2 : String} {l2 : JVal} :
    ∀ (entries : List (String × JVal)) (inv : JObj),
    (k1, l2) ∈ entries → jsObjLike l2 →
    k2 ∈ keysOf (enumEntries l2) → k2 ∈ keysOf (invOuter inv entries)
  | [], _, hmem, _, _ => by simp at hmem
  | e :: rest, inv, hmem, ho, hk2 => by
    rcases List.mem_cons.mp hmem with h1 | h1
    · subst h1
      simp only [invOuter, List.foldl_cons, ho, if_true]
      exact keysOf_invOuter_mono rest _
        (keysOf_invInner_establish k1 (enumEntries l2) inv hk2)
    · simp only [invOuter, List.foldl_cons]
      by_cases he : jsObjLike e.2 <;>
        simpa [he] using keysOf_invOuter_establish rest _ h1 ho hk2

theorem nodup_keysOf_invInner (k1 : String) :
    ∀ (entries : List (String × JVal)) {inv : JObj},
    (keysOf inv).Nodup → (keysOf (invInner inv k1 entries)).Nodup
  | [], _, h => h
  | e :: rest, inv, h =>
    nodup_keysOf_invInner k1 rest (nodup_keysOf_setProp _ _ h)

theorem nodup_keysOf_invOuter :
    ∀ (entries : List (String × JVal)) {inv : JObj},
    (keysOf inv).Nodup → (keysOf (invOuter inv entries)).Nodup
  | [], _, h => h
  | e :: rest, inv, h => by
    simp only [invOuter, List.foldl_cons]
    by_cases ho : jsObjLike e.2
    · simpa [ho] using nodup_keysOf_invOuter rest (nodup_keysOf_invInner e.1 _ h)
    · simpa [ho] using nodup_keysOf_invOuter rest h

theorem nodup_keysOf_inverse (v : JVal) :
    (keysOf (inverseNestedObject v)).Nodup :=
  nodup_keysOf_invOuter (enumEntries v) (by simp [keysOf])

/-- Preservation of an established inner binding under one insertion with a
different first-level key. -/
theorem invInsert_preserve {inv : JObj} {k2 k1 : String} {v : JVal}
    {fields : JObj} (k1' : String) (e : String × JVal)
    (hk : getProp inv k2 = some (.obj fields)) (hv : getProp fields k1 = some v)
    (hne : k1' ≠ k1) :
    ∃ fields2, getProp (invInsert inv k1' e) k2 = some (.obj fields2) ∧
      getProp fields2 k1 = some v := by
  by_cases he : e.1 = k2
  · subst he
    refine ⟨setProp (curFields inv e.1) k1' e.2, ?_, ?_⟩
    · simp [invInsert, getProp_setProp_self]
    · rw [getProp_setProp_ne _ _ _ _ (Ne.symm hne)]
      simp [curFields, hk, hv]
  · refine ⟨fields, ?_, hv⟩
    simp only [invInsert]
    rw [getProp_setProp_ne _ _ _ _ (fun h => he h.symm)]
    exact hk

theorem invInner_preserve {k2 k1 : String} {v : JVal} (k1' : String)
    (hne : k1' ≠ k1) :
    ∀ (entries : List (String × JVal)) (inv : JObj) (fields : JObj),
    getProp inv k2 = some (.obj fields) → getProp fields k1 = some v →
    ∃ fields2, getProp (invInner inv k1' entries) k2 = some (.obj fields2) ∧
      getProp fields2 k1 = some v
  | [], inv, fields, hk, hv => ⟨fields, hk, hv⟩
  | e :: rest, inv, fields, hk, hv => by
    obtain ⟨f2, hk2, hv2⟩ := invInsert_preserve k1' e hk hv hne
    exact invInner_preserve k1' hne rest _ f2 hk2 hv2

theorem invOuter_preserve {k2 k1 : String} {v : JVal} :
    ∀ (entries : List (String × JVal)) (inv : JObj) (fields : JObj),
    getProp inv k2 = some (.obj fields) → getProp fields k1 = some v →
    (∀ p ∈ entries, (p : String × JVal).1 ≠ k1) →
    ∃ fields2, getProp (invOuter inv entries) k2 = some (.obj fields2) ∧
      getProp fields2 k1 = some v
  | [], inv, fields, hk, hv, _ => ⟨fields, hk, hv⟩
  | e :: rest, inv, fields, hk, hv, hall => by
    simp only [invOuter, List.foldl_cons]
    by_cases ho : jsObjLike e.2
    · obtain ⟨f2, hk2, hv2⟩ :=
        invInner_preserve e.1 (hall e (List.mem_cons_self _ _)) (enumEntries e.2)
          inv fields hk hv
      simpa [ho] using invOuter_preserve rest _ f2 hk2 hv2
        (fun p hp => hall p (List.mem_cons_of_mem _ hp))
    · simpa [ho] using invOuter_preserve rest inv fields hk hv
        (fun p hp => hall p (List.mem_cons_of_mem _ hp))

/-- An insertion with a different second-level key leaves a binding alone. -/
theorem invInner_untouched {k2 : String} {x : JVal} (k1 : String) :
    ∀ (entries : List (String × JVal)) (inv : JObj),
    getProp inv k2 = some x → k2 ∉ keysOf entries →
    getProp (invInner inv k1 entries) k2 = some x
  | [], _, hk, _ => hk
  | (ke, ve) :: rest, inv, hk, hout => by
    simp only [keysOf, List.map_cons, List.mem_cons, not_or] at hout
    have hne : k2 ≠ ke := hout.1
    refine invInner_untouched k1 rest _ ?_ (by simpa [keysOf] using hout.2)
    simp only [invInsert]
    rw [getProp_setProp_ne _ _ _ _ hne]
    exact hk

theorem invInner_establish {k2 : String} {v : JVal} (k1 : String) :
    ∀ (entries : List (String × JVal)) (inv : JObj),
    (keysOf entries).Nodup → (k2, v) ∈ entries →
    ∃ fields, getProp (invInner inv k1 entries) k2 = some (.obj fields) ∧
      getProp fields k1 = some v
  | [], _, _, hmem => by simp at hmem
  | e :: rest, inv, hnd, hmem => by
    simp only [keysOf, List.map_cons, List.nodup_cons] at hnd
    rcases List.mem_cons.mp hmem with h1 | h1
    · subst h1
      refine ⟨setProp (curFields inv k2) k1 v, ?_, getProp_setProp_self _ _ _⟩
      refine invInner_untouched k1 rest _ ?_ (by simpa [keysOf] using hnd.1)
      simp [invInsert, getProp_setProp_self]
    · exact invInner_establish k1 rest _ (by simpa [keysOf] using hnd.2) h1

/-- The central pivot fact: a second-level entry of an object-like
first-level value ends up at `inverted[innerKey][outerKey]`. -/
theorem invOuter_main {k1 k2 : String} {l2 v : JVal} :
    ∀ (entries : List (String × JVal)) (inv : JObj),
    (keysOf entries).Nodup → (k1, l2) ∈ entries → jsObjLike l2 →
    (keysOf (enumEntries l2)).Nodup → (k2, v) ∈ enumEntries l2 →
    ∃ fields, getProp (invOuter inv entries) k2 = some (.obj fields) ∧
      getProp fields k1 = some v
  | [], _, _, hmem, _, _, _ => by simp at hmem
  | e :: rest, inv, hnd, hmem, ho, hnd2, hin => by
    simp only [keysOf, List.map_cons, List.nodup_cons] at hnd
    rcases List.mem_cons.mp hmem with h1 | h1
    · subst h1
      simp only [invOuter, List.foldl_cons, ho, if_true]
      obtain ⟨fields, hk, hv⟩ := invInner_establish k1 (enumEntries l2) inv hnd2 hin
      have hall : ∀ p ∈ rest, (p : String × JVal).1 ≠ k1 := by
        intro p hp heq
        exact hnd.1 (by simpa [heq] using List.mem_map_of_mem Prod.fst hp)
      exact invOuter_preserve rest _ fields hk hv hall
    · simp only [invOuter, List.foldl_cons]
      by_cases he : jsObjLike e.2 <;>
        simpa [he] using invOuter_main rest _
          (by simpa [keysOf] using hnd.2) h1 ho hnd2 hin

/-- A first-level key whose value was skipped never appears as an inner key
of the pivot result. -/
def noInner (k1 : String) (inv : JObj) : Prop :=
  ∀ k2 fields, getProp inv k2 = some (.obj fields) → getProp fields k1 = none

theorem noInner_invInsert {k1 : String} {inv : JObj} (k1' : String)
    (e : String × JVal) (h : noInner k1 inv) (hne : k1' ≠ k1) :
    noInner k1 (invInsert inv k1' e) := by
  intro k2 fields hk
  by_cases he : e.1 = k2
  · subst he
    simp only [invInsert, getProp_setProp_self, Option.some.injEq,
      JVal.obj.injEq] at hk
    subst hk
    rw [getProp_setProp_ne _ _ _ _ (Ne.symm hne)]
    unfold curFields
    cases hg : getProp inv e.1 with
    | none => simp [getProp]
    | some x =>
      cases x with
      | obj fs => exact h _ _ hg
      | null => simp [getProp]
      | bool b => simp [getProp]
      | num n => simp [getProp]
      | str s => simp [getProp]
      | arr xs => simp [getProp]
  · simp only [invInsert] at hk
    rw [getProp_setProp_ne _ _ _ _ (fun h2 => he h2.symm)] at hk
    exact h _ _ hk

theorem noInner_invInner {k1 : String} (k1' : String) (hne : k1' ≠ k1) :
    ∀ (entries : List (String × JVal)) {inv : JObj},
    noInner k1 inv → noInner k1 (invInner inv k1' entries)
  | [], _, h => h
  | e :: rest, inv, h =>
    noInner_invInner k1' hne rest (noInner_invInsert k1' e h hne)

theorem noInner_invOuter {k1 : String} :
    ∀ (entries : List (String × JVal)) {inv : JObj},
    noInner k1 inv → (∀ p ∈ entries, (p : String × JVal).1 = k1 → jsObjLike p.2 = false) →
    noInner k1 (invOuter inv entries)
  | [], _, h, _ => h
  | e :: rest, inv, h, hall => by
    simp only [invOuter, List.foldl_cons]
    by_cases ho : jsObjLike e.2
    · have hne : e.1 ≠ k1 := by
        intro h1
        have h2 := hall e (List.mem_cons_self _ _) h1
        rw [h2] at ho
        simp at ho
      simpa [ho] using noInner_invOuter rest (noInner_invInner e.1 hne (enumEntries e.2) h)
        (fun p hp => hall p (List.mem_cons_of_mem _ hp))
    · simpa [ho] using noInner_invOuter rest h
        (fun p hp => hall p (List.mem_cons_of_mem _ hp))

/-! ## Lemmas about deep merge -/

/-- The per-key rule of the deep-merge contract, following the specification:
if both values at the key are non-array mappings they are merged
recursively; if only the source value is such a mapping the target receives
a (deep copy of) the source value; otherwise the source value replaces the
target value outright. -/
def mergeKeyRule (target : JObj) (k : String) : JVal → JVal
  | .obj sfields =>
    (match getProp target k with
     | some (.obj tfields) => .obj (deepMergeEntries tfields sfields)
     | _ => .obj sfields)
  | sv => sv

theorem deepMergeStep_getProp_self (t : JObj) (k : String) (sv : JVal) :
    getProp (deepMergeStep t k sv) k = some (mergeKeyRule t k sv) := by
  cases sv with
  | obj sfields =>
    simp only [deepMergeStep, mergeKeyRule]
    cases hg : getProp t k with
    | none => simp [getProp_setProp_self]
    | some x => cases x <;> simp [getProp_setProp_self]
  | null => simp [deepMergeStep, mergeKeyRule, getProp_setProp_self]
  | bool b => simp [deepMergeStep, mergeKeyRule, getProp_setProp_self]
  | num n => simp [deepMergeStep, mergeKeyRule, getProp_setProp_self]
  | str s => simp [deepMergeStep, mergeKeyRule, getProp_setProp_self]
  | arr xs => simp [deepMergeStep, mergeKeyRule, getProp_setProp_self]

theorem deepMergeStep_getProp_ne {k' k : String} (t : JObj) (sv : JVal)
    (h : k' ≠ k) : getProp (deepMergeStep t k sv) k' = getProp t k' := by
  cases sv with
  | obj sfields =>
    simp only [deepMergeStep]
    cases hg : getProp t k with
    | none => exact getProp_setProp_ne _ _ _ _ h
    | some x => cases x <;> exact getProp_setProp_ne _ _ _ _ h
  | null => exact getProp_setProp_ne _ _ _ _ h
  | bool b => exact getProp_setProp_ne _ _ _ _ h
  | num n => exact getProp_setProp_ne _ _ _ _ h
  | str s => exact getProp_setProp_ne _ _ _ _ h
  | arr xs => exact getProp_setProp_ne _ _ _ _ h

theorem mergeKeyRule_congr {t1 t2 : JObj} {k : String} (sv : JVal)
    (h : getProp t1 k = getProp t2 k) :
    mergeKeyRule t1 k sv = mergeKeyRule t2 k sv := by
  cases sv <;> simp [mergeKeyRule, h]

/-- The lookup characterization of `deepMerge`: with duplicate-free source
keys, the result at any key is the per-key rule applied to the source's
binding, and the target's binding when the source has none. -/
theorem deepMergeEntries_getProp :
    ∀ (s : List (String × JVal)) (t : JObj), (keysOf s).Nodup → ∀ k,
    getProp (deepMergeEntries t s) k =
      (match getProp s k with
       | some sv => some (mergeKeyRule t k sv)
       | none => getProp t k)
  | [], t, _, k => by simp [deepMergeEntries, getProp]
  | (k0, sv0) :: rest, t, hnd, k => by
    simp only [keysOf, List.map_cons, List.nodup_cons] at hnd
    have hstep : deepMergeEntries t ((k0, sv0) :: rest) =
        deepMergeEntries (deepMergeStep t k0 sv0) rest := rfl
    rw [hstep,
      deepMergeEntries_getProp rest _ (by simpa [keysOf] using hnd.2) k]
    by_cases hk : k = k0
    · subst hk
      have hrest : getProp rest k = none :=
        getProp_eq_none_of_notMem (by simpa [keysOf] using hnd.1)
      have hhead : getProp ((k, sv0) :: rest) k = some sv0 := by
        simp [getProp]
      simp only [hrest, hhead]
      exact deepMergeStep_getProp_self t k sv0
    · have hne : k0 ≠ k := fun h => hk h.symm
      have h1 : getProp ((k0, sv0) :: rest) k = getProp rest k := by
        simp [getProp, hne]
      have h2 : getProp (deepMergeStep t k0 sv0) k = getProp t k :=
        deepMergeStep_getProp_ne t sv0 hk
      rw [h1]
      cases hsv : getProp rest k with
      | none => simpa using h2
      | some sv => simp [mergeKeyRule_congr sv h2]

theorem deepMergeMany_eq_foldl :
    ∀ (sources : List JVal) (target : JObj),
    deepMergeMany target sources = sources.foldl deepMergeV target
  | [], _ => rfl
  | s :: rest, target => deepMergeMany_eq_foldl rest (deepMergeV target s)

/-! ## Lemmas about the snapshot builder -/

theorem getProp_isSome_of_mem_keysOf {l : JObj} {k : String}
    (h : k ∈ keysOf l) : (getProp l k).isSome := by
  induction l with
  | nil => simp [keysOf] at h
  | cons e rest ih =>
    obtain ⟨k0, v0⟩ := e
    by_cases h0 : k0 = k
    · simp [getProp, h0]
    · simp only [keysOf, List.map_cons, List.mem_cons] at h
      rcases h with h1 | h1
      · exact absurd h1.symm h0
      · simpa [getProp, h0] using ih h1

/-- Inversion of one successful year step: the exact new state. -/
theorem platStep_ok {platform : String} {years : JVal} {st st2 : PlatState}
    {iy : Nat × String} (h : platStep platform years st iy = .ok st2) :
    ∃ yv renamed,
      getMember years iy.2 = some yv ∧
      renameReduce (enumEntries yv) = .ok renamed ∧
      st2 = { o1 := deepMergeOpt st.o1 (renamed.map .obj)
              fromMap := setProp st.fromMap iy.2
                (.str (fromFileName platform iy.2))
              lastMap := setProp st.lastMap (lastLabel iy.1)
                (.str (lastFileName platform iy.1))
              writes := st.writes ++
                [(fromFileName platform iy.2,
                  jsonStringify (.obj (deepMergeOpt st.o1 (renamed.map .obj)))),
                 (lastFileName platform iy.1,
                  jsonStringify (.obj (deepMergeOpt st.o1 (renamed.map .obj))))] } := by
  rw [platStep] at h
  cases hm : getMember years iy.2 with
  | none => simp [hm] at h
  | some yv =>
    simp only [hm] at h
    cases hr : renameReduce (enumEntries yv) with
    | error e => simp [hr] at h
    | ok renamed =>
      simp only [hr, Except.ok.injEq] at h
      exact ⟨yv, renamed, rfl, hr, h.symm⟩

/-- A successful per-platform fold computes the two manifest sub-mappings as
pure folds of the processed `(index, year)` pairs. -/
theorem platFold_maps {platform : String} {years : JVal} :
    ∀ (ps : List (Nat × String)) (st0 stF : PlatState),
    platFold platform years st0 ps = .ok stF →
    stF.fromMap = ps.foldl
      (fun m iy => setProp m iy.2 (.str (fromFileName platform iy.2)))
      st0.fromMap ∧
    stF.lastMap = ps.foldl
      (fun m iy => setProp m (lastLabel iy.1) (.str (lastFileName platform iy.1)))
      st0.lastMap
  | [], st0, stF, h => by
    have h2 : st0 = stF := by simpa [platFold] using h
    subst h2
    simp
  | iy :: rest, st0, stF, h => by
    rw [platFold] at h
    cases hs : platStep platform years st0 iy with
    | error e => rw [hs] at h; simp at h
    | ok st1 =>
      rw [hs] at h
      obtain ⟨hf, hl⟩ := platFold_maps rest st1 stF h
      obtain ⟨yv, renamed, _, _, rfl⟩ := platStep_ok hs
      simp only [List.foldl_cons]
      exact ⟨hf, hl⟩

/-- Membership propagates through the `from` sub-mapping fold. -/
theorem mem_keysOf_fromFold (platform : String) :
    ∀ (ps : List (Nat × String)) (m0 : JObj) (y : String),
    (∃ iy ∈ ps, (iy : Nat × String).2 = y) ∨ y ∈ keysOf m0 →
    y ∈ keysOf (ps.foldl
      (fun m iy => setProp m iy.2 (.str (fromFileName platform iy.2))) m0)
  | [], m0, y, h => by
    rcases h with ⟨iy, hmem, _⟩ | h
    · simp at hmem
    · exact h
  | iy0 :: rest, m0, y, h => by
    simp only [List.foldl_cons]
    refine mem_keysOf_fromFold platform rest _ y ?_
    rcases h with ⟨iy, hmem, hy⟩ | h
    · rcases List.mem_cons.mp hmem with h1 | h1
      · subst h1
        exact Or.inr (hy ▸ mem_keysOf_setProp_self m0 iy.2 _)
      · exact Or.inl ⟨iy, h1, hy⟩
    · exact Or.inr (mem_keysOf_setProp_of_mem _ _ h)

/-- The `last` sub-mapping gains exactly one entry per processed year: all
its keys are ordinal labels, and labels of not-yet-processed ordinals are
fresh. -/
theorem length_lastFold (platform : String) :
    ∀ (ys : List String) (i : Nat) (m0 : JObj),
    (∀ s ∈ keysOf m0, ∃ j, j < i ∧ s = lastLabel j) →
    ((List.enumFrom i ys).foldl
      (fun m iy => setProp m (lastLabel iy.1) (.str (lastFileName platform iy.1)))
      m0).length = m0.length + ys.length
  | [], i, m0, _ => by simp
  | y :: rest, i, m0, hkeys => by
    have hfresh : lastLabel i ∉ keysOf m0 := by
      intro hmem
      obtain ⟨j, hj, hl⟩ := hkeys _ hmem
      exact absurd (lastLabel_inj hl.symm) (by omega)
    have hset : setProp m0 (lastLabel i) (.str (lastFileName platform i)) =
        m0 ++ [(lastLabel i, .str (lastFileName platform i))] :=
      setProp_eq_append _ hfresh
    have hkeys2 : ∀ s ∈ keysOf (m0 ++ [(lastLabel i, JVal.str (lastFileName platform i))]),
        ∃ j, j < i + 1 ∧ s = lastLabel j := by
      intro s hs
      rw [keysOf, List.map_append] at hs
      rcases List.mem_append.mp hs with h1 | h1
      · obtain ⟨j, hj, hl⟩ := hkeys s h1
        exact ⟨j, by omega, hl⟩
      · simp only [List.map_cons, List.map_nil, List.mem_singleton] at h1
        exact ⟨i, by omega, h1⟩
    calc ((List.enumFrom i (y :: rest)).foldl _ m0).length
        = ((List.enumFrom (i + 1) rest).foldl
            (fun m iy => setProp m (lastLabel iy.1)
              (.str (lastFileName platform iy.1)))
            (m0 ++ [(lastLabel i, .str (lastFileName platform i))])).length := by
          simp only [List.enumFrom, List.foldl_cons, hset]
      _ = (m0 ++ [(lastLabel i, JVal.str (lastFileName platform i))]).length
            + rest.length := length_lastFold platform rest (i + 1) _ hkeys2
      _ = m0.length + (y :: rest).length := by
          simp [List.length_append]
          omega

/-- Later platforms do not disturb an earlier platform's manifest entry. -/
theorem buildFold_preserve :
    ∀ (rest : JObj) (acc : JObj × List (String × String))
      (im : JObj) (ws : List (String × String)),
    buildFold acc rest = .ok (im, ws) →
    ∀ p, p ∉ keysOf rest → getProp im p = getProp acc.1 p
  | [], acc, im, ws, h, p, _ => by
    have h2 : acc = (im, ws) := by simpa [buildFold] using h
    simp [h2]
  | e :: rest, acc, im, ws, h, p, hout => by
    rw [buildFold] at h
    cases hs : buildStepAcc acc e with
    | error err => simp [hs] at h
    | ok acc1 =>
      simp only [hs] at h
      simp only [keysOf, List.map_cons, List.mem_cons, not_or] at hout
      rw [buildFold_preserve rest acc1 im ws h p
        (by simpa [keysOf] using hout.2)]
      rw [buildStepAcc] at hs
      cases he : platBuild e.1 e.2 with
      | error err => simp [he] at hs
      | ok st =>
        simp only [he, Except.ok.injEq] at hs
        rw [← hs]
        exact getProp_setProp_ne _ _ _ _ hout.1

/-- A successful `buildAll` run gives every platform of `switched` a manifest
entry built from its own successful `platBuild`. -/
theorem buildFold_main :
    ∀ (switched : JObj) (acc : JObj × List (String × String))
      (im : JObj) (ws : List (String × String)),
    buildFold acc switched = .ok (im, ws) →
    (keysOf switched).Nodup →
    ∀ p yv, (p, yv) ∈ switched →
    ∃ st, platBuild p yv = .ok st ∧
      getProp im p =
        some (.obj [("from", .obj st.fromMap), ("last", .obj st.lastMap)])
  | [], _, _, _, _, _, p, yv, hmem => by simp at hmem
  | e :: rest, acc, im, ws, h, hnd, p, yv, hmem => by
    obtain ⟨e1, e2⟩ := e
    rw [buildFold] at h
    cases hs : buildStepAcc acc (e1, e2) with
    | error err => simp [hs] at h
    | ok acc1 =>
      simp only [hs] at h
      simp only [keysOf, List.map_cons, List.nodup_cons] at hnd
      rcases List.mem_cons.mp hmem with h1 | h1
      · rw [Prod.mk.injEq] at h1
        obtain ⟨h2, h3⟩ := h1
        subst h2; subst h3
        rw [buildStepAcc] at hs
        cases he : platBuild p yv with
        | error err => simp [he] at hs
        | ok st =>
          refine ⟨st, rfl, ?_⟩
          simp only [he, Except.ok.injEq] at hs
          rw [buildFold_preserve rest _ im ws h p
            (by simpa [keysOf] using hnd.1), ← hs]
          exact getProp_setProp_self _ _ _
      · exact buildFold_main rest acc1 im ws h
          (by simpa [keysOf] using hnd.2) p yv h1

/-- A successful pipeline run contains a successful `buildAll` whose manifest
is returned unchanged. -/
theorem runPipeline_ok_buildAll {tree : JObj} {site : List (String × JVal)}
    {ff : List (String × JVal)} {im : JObj}
    (h : runPipeline tree site = .ok (ff, im)) :
    ∃ ws, buildAll (switchedOf tree) = .ok (im, ws) := by
  rw [runPipeline] at h
  cases hb : buildAll (switchedOf tree) with
  | error e => rw [hb] at h; simp at h
  | ok acc =>
    obtain ⟨im0, ws⟩ := acc
    refine ⟨ws, ?_⟩
    simp only [hb, Except.ok.injEq] at h
    have h3 : im0 = im := congrArg Prod.snd h
    rw [h3]

theorem switchedOf_eq_map {tree : JObj} (hnd : (keysOf tree).Nodup) :
    switchedOf tree = tree.map (fun e => (e.1, JVal.obj (switchedLevel1 e.2))) :=
  foldSet_eq_map _ hnd

theorem keysOf_switchedLevel1 (v0 : JVal) :
    keysOf (switchedLevel1 v0) = keysOf (inverseNestedObject v0) := by
  rw [switchedLevel1, foldSet_eq_map _ (nodup_keysOf_inverse v0)]
  simp [keysOf, List.map_map, Function.comp]

/-! ## Closed forms of the pivot under globally unique inner keys -/

/-- All inner keys of a two-level object, in traversal order. -/
def flatKeys (o : List (String × JVal)) : List String :=
  o.flatMap (fun e => keysOf (enumEntries e.2))

/-- The pivot of a two-level object with globally unique inner keys, written
out: one singleton-wrapped entry per `(outer, inner)` pair, in traversal
order. -/
def pairBlocks (o : List (String × JVal)) : List (String × JVal) :=
  o.flatMap (fun e =>
    match e.2 with
    | .obj fs => fs.map (fun e2 => (e2.1, JVal.obj [(e.1, e2.2)]))
    | _ => [])

theorem invInner_append_fresh (k1 : String) :
    ∀ (fs : List (String × JVal)) (inv : JObj),
    (keysOf fs).Nodup → (∀ k ∈ keysOf fs, k ∉ keysOf inv) →
    invInner inv k1 fs = inv ++ fs.map (fun e => (e.1, JVal.obj [(k1, e.2)]))
  | [], inv, _, _ => by simp [invInner]
  | (k2, u) :: rest, inv, hnd, hdisj => by
    simp only [keysOf, List.map_cons, List.nodup_cons] at hnd
    have hk2 : k2 ∉ keysOf inv := hdisj k2 (by simp [keysOf])
    have hcur : curFields inv k2 = [] := by
      rw [curFields, getProp_eq_none_of_notMem hk2]
    have hins : invInsert inv k1 (k2, u) = inv ++ [(k2, JVal.obj [(k1, u)])] := by
      rw [invInsert]
      simp only [hcur]
      exact setProp_eq_append _ hk2
    have hdisj2 : ∀ k ∈ keysOf rest, k ∉ keysOf (inv ++ [(k2, JVal.obj [(k1, u)])]) := by
      intro k hk hmem
      rw [keysOf, List.map_append] at hmem
      rcases List.mem_append.mp hmem with h1 | h1
      · refine hdisj k ?_ h1
        simp only [keysOf, List.map_cons, List.mem_cons]
        exact Or.inr hk
      · simp only [List.map_cons, List.map_nil, List.mem_singleton] at h1
        subst h1
        exact hnd.1 hk
    calc invInner inv k1 ((k2, u) :: rest)
        = invInner (inv ++ [(k2, JVal.obj [(k1, u)])]) k1 rest := by
          simp only [invInner, List.foldl_cons, hins]
      _ = inv ++ [(k2, JVal.obj [(k1, u)])]
            ++ rest.map (fun e => (e.1, JVal.obj [(k1, e.2)])) :=
          invInner_append_fresh k1 rest _ (by simpa [keysOf] using hnd.2) hdisj2
      _ = inv ++ ((k2, u) :: rest).map (fun e => (e.1, JVal.obj [(k1, e.2)])) := by
          simp

theorem invOuter_flat :
    ∀ (o : List (String × JVal)) (inv : JObj),
    (∀ e ∈ o, ∃ fs, (e : String × JVal).2 = JVal.obj fs) →
    (flatKeys o).Nodup →
    (∀ k ∈ flatKeys o, k ∉ keysOf inv) →
    invOuter inv o = inv ++ pairBlocks o
  | [], inv, _, _, _ => by simp [invOuter, pairBlocks]
  | e :: rest, inv, hobj, hnd, hdisj => by
    obtain ⟨fs, hfs⟩ := hobj e (List.mem_cons_self _ _)
    obtain ⟨e1, e2⟩ := e
    simp only at hfs
    subst hfs
    simp only [flatKeys, List.flatMap_cons, enumEntries] at hnd hdisj
    have hnd1 : (keysOf fs).Nodup := (List.nodup_append.mp hnd).1
    have hnd2 : (flatKeys rest).Nodup := (List.nodup_append.mp hnd).2.1
    have hdisj0 : ∀ k ∈ keysOf fs, k ∉ keysOf inv := by
      intro k hk
      exact hdisj k (List.mem_append.mpr (Or.inl hk))
    have hblock := invInner_append_fresh e1 fs inv hnd1 hdisj0
    have hdisj2 : ∀ k ∈ flatKeys rest,
        k ∉ keysOf (inv ++ fs.map (fun e => (e.1, JVal.obj [(e1, e.2)]))) := by
      intro k hk hmem
      rw [keysOf, List.map_append] at hmem
      rcases List.mem_append.mp hmem with h1 | h1
      · exact hdisj k (List.mem_append.mpr (Or.inr hk)) h1
      · rw [List.map_map] at h1
        have h2 : k ∈ keysOf fs := by
          simpa [keysOf, Function.comp] using h1
        exact (List.nodup_append.mp hnd).2.2 h2 hk
    calc invOuter inv ((e1, JVal.obj fs) :: rest)
        = invOuter (invInner inv e1 fs) rest := by
          simp [invOuter, jsObjLike, enumEntries]
      _ = inv ++ fs.map (fun e => (e.1, JVal.obj [(e1, e.2)])) ++ pairBlocks rest := by
          rw [hblock]
          exact invOuter_flat rest _
            (fun e he => hobj e (List.mem_cons_of_mem _ he)) hnd2 hdisj2
      _ = inv ++ pairBlocks ((e1, JVal.obj fs) :: rest) := by
          simp [pairBlocks, List.flatMap_cons]

theorem inverse_eq_pairBlocks {o : List (String × JVal)}
    (hobj : ∀ e ∈ o, ∃ fs, (e : String × JVal).2 = JVal.obj fs)
    (hnd : (flatKeys o).Nodup) :
    inverseNestedObject (.obj o) = pairBlocks o := by
  have := invOuter_flat o [] hobj hnd (by simp [keysOf])
  simpa [inverseNestedObject, enumEntries] using this

/-- Processing one block of singleton-wrapped entries rebuilds the original
inner object under its outer key. -/
theorem invOuter_block_aux (k1 : String) :
    ∀ (fs0 : List (String × JVal)) (acc cur : JObj),
    k1 ∉ keysOf acc → (∀ k ∈ keysOf fs0, k ∉ keysOf cur) →
    (keysOf fs0).Nodup →
    invOuter (acc ++ [(k1, JVal.obj cur)])
        (fs0.map (fun e2 => (e2.1, JVal.obj [(k1, e2.2)]))) =
      acc ++ [(k1, JVal.obj (cur ++ fs0))]
  | [], acc, cur, _, _, _ => by simp [invOuter]
  | (k2, u) :: restfs, acc, cur, hk1, hfresh, hnd => by
    simp only [keysOf, List.map_cons, List.nodup_cons] at hnd
    have hcur : curFields (acc ++ [(k1, JVal.obj cur)]) k1 = cur := by
      rw [curFields, getProp_append_of_notMem _ hk1]
      simp [getProp]
    have hk2cur : k2 ∉ keysOf cur := hfresh k2 (by simp [keysOf])
    have hstep : invInner (acc ++ [(k1, JVal.obj cur)]) k2 [(k1, u)] =
        acc ++ [(k1, JVal.obj (cur ++ [(k2, u)]))] := by
      simp only [invInner, List.foldl_cons, List.foldl_nil, invInsert, hcur]
      rw [setProp_eq_append _ hk2cur, setProp_append_last _ _ hk1]
    have hfresh2 : ∀ k ∈ keysOf restfs, k ∉ keysOf (cur ++ [(k2, u)]) := by
      intro k hk hmem
      rw [keysOf, List.map_append] at hmem
      rcases List.mem_append.mp hmem with h1 | h1
      · refine hfresh k ?_ h1
        simp only [keysOf, List.map_cons, List.mem_cons]
        exact Or.inr hk
      · simp only [List.map_cons, List.map_nil, List.mem_singleton] at h1
        subst h1
        exact hnd.1 hk
    calc invOuter (acc ++ [(k1, JVal.obj cur)])
          (((k2, u) :: restfs).map (fun e2 => (e2.1, JVal.obj [(k1, e2.2)])))
        = invOuter (acc ++ [(k1, JVal.obj (cur ++ [(k2, u)]))])
            (restfs.map (fun e2 => (e2.1, JVal.obj [(k1, e2.2)]))) := by
          simp only [List.map_cons, invOuter, List.foldl_cons, jsObjLike,
            enumEntries, if_true]
          rw [hstep]
      _ = acc ++ [(k1, JVal.obj (cur ++ [(k2, u)] ++ restfs))] :=
          invOuter_block_aux k1 restfs acc _ hk1 hfresh2
            (by simpa [keysOf] using hnd.2)
      _ = acc ++ [(k1, JVal.obj (cur ++ (k2, u) :: restfs))] := by
          simp

theorem invOuter_block (k1 : String) (fs : List (String × JVal)) (acc : JObj)
    (hne : fs ≠ []) (hnd : (keysOf fs).Nodup) (hk1 : k1 ∉ keysOf acc) :
    invOuter acc (fs.map (fun e2 => (e2.1, JVal.obj [(k1, e2.2)]))) =
      acc ++ [(k1, JVal.obj fs)] := by
  obtain ⟨⟨k2, u⟩, restfs, rfl⟩ := List.exists_cons_of_ne_nil hne
  simp only [keysOf, List.map_cons, List.nodup_cons] at hnd
  have hcur : curFields acc k1 = [] := by
    rw [curFields, getProp_eq_none_of_notMem hk1]
  have hstep : invInner acc k2 [(k1, u)] = acc ++ [(k1, JVal.obj [(k2, u)])] := by
    simp only [invInner, List.foldl_cons, List.foldl_nil, invInsert, hcur]
    simp only [setProp]
    exact setProp_eq_append _ hk1
  have hfresh : ∀ k ∈ keysOf restfs, k ∉ keysOf ([(k2, u)] : JObj) := by
    intro k hk hmem
    simp only [keysOf, List.map_cons, List.map_nil, List.mem_singleton] at hmem
    subst hmem
    exact hnd.1 hk
  calc invOuter acc (((k2, u) :: restfs).map (fun e2 => (e2.1, JVal.obj [(k1, e2.2)])))
      = invOuter (acc ++ [(k1, JVal.obj [(k2, u)])])
          (restfs.map (fun e2 => (e2.1, JVal.obj [(k1, e2.2)]))) := by
        simp only [List.map_cons, invOuter, List.foldl_cons, jsObjLike,
          enumEntries, if_true]
        rw [hstep]
    _ = acc ++ [(k1, JVal.obj ([(k2, u)] ++ restfs))] :=
        invOuter_block_aux k1 restfs acc [(k2, u)] hk1 hfresh
          (by simpa [keysOf] using hnd.2)
    _ = acc ++ [(k1, JVal.obj ((k2, u) :: restfs))] := by simp

theorem invOuter_pairBlocks :
    ∀ (o : List (String × JVal)) (acc : JObj),
    (keysOf o).Nodup → (∀ k ∈ keysOf o, k ∉ keysOf acc) →
    (∀ e ∈ o, ∃ fs, (e : String × JVal).2 = JVal.obj fs ∧ fs ≠ [] ∧ (keysOf fs).Nodup) →
    invOuter acc (pairBlocks o) = acc ++ o
  | [], acc, _, _, _ => by simp [invOuter, pairBlocks]
  | e :: rest, acc, hnd, hdisj, hshape => by
    obtain ⟨fs, hfs, hne, hndfs⟩ := hshape e (List.mem_cons_self _ _)
    obtain ⟨e1, e2⟩ := e
    simp only at hfs
    subst hfs
    simp only [keysOf, List.map_cons, List.nodup_cons] at hnd
    have hk1 : e1 ∉ keysOf acc := hdisj e1 (by simp [keysOf])
    have hblocks : pairBlocks ((e1, JVal.obj fs) :: rest) =
        fs.map (fun e2 => (e2.1, JVal.obj [(e1, e2.2)])) ++ pairBlocks rest := by
      simp [pairBlocks, List.flatMap_cons]
    have hdisj2 : ∀ k ∈ keysOf rest, k ∉ keysOf (acc ++ [(e1, JVal.obj fs)]) := by
      intro k hk hmem
      rw [keysOf, List.map_append] at hmem
      rcases List.mem_append.mp hmem with h1 | h1
      · refine hdisj k ?_ h1
        simp only [keysOf, List.map_cons, List.mem_cons]
        exact Or.inr hk
      · simp only [List.map_cons, List.map_nil, List.mem_singleton] at h1
        subst h1
        exact hnd.1 hk
    calc invOuter acc (pairBlocks ((e1, JVal.obj fs) :: rest))
        = invOuter (invOuter acc (fs.map (fun e2 => (e2.1, JVal.obj [(e1, e2.2)]))))
            (pairBlocks rest) := by
          rw [hblocks, invOuter, List.foldl_append]
          rfl
      _ = invOuter (acc ++ [(e1, JVal.obj fs)]) (pairBlocks rest) := by
          rw [invOuter_block e1 fs acc hne hndfs hk1]
      _ = acc ++ [(e1, JVal.obj fs)] ++ rest :=
          invOuter_pairBlocks rest _ (by simpa [keysOf] using hnd.2) hdisj2
            (fun e he => hshape e (List.mem_cons_of_mem _ he))
      _ = acc ++ (e1, JVal.obj fs) :: rest := by simp

/-! ## Lemmas about the tree loaders -/

theorem jsonTreeGo_no_dot (parse : String → Option JVal) :
    ∀ (entries : List (String × FSEntry)) (tree : JObj) (n : String),
    startsWithDot n = true → getProp tree n = none →
    getProp (jsonTreeGo parse tree entries) n = none
  | [], _, _, _, h0 => h0
  | (item, e) :: rest, tree, n, hdot, h0 => by
    rw [jsonTreeGo]
    cases hi : startsWithDot item with
    | true =>
      simp only [if_true]
      exact jsonTreeGo_no_dot parse rest tree n hdot h0
    | false =>
      have hne : n ≠ item := by
        intro h
        rw [← h, hdot] at hi
        cases hi
      simp only [Bool.false_eq_true, if_false]
      cases hj : jsonTreeEntry parse item e with
      | none => exact jsonTreeGo_no_dot parse rest tree n hdot h0
      | some v =>
        refine jsonTreeGo_no_dot parse rest _ n hdot ?_
        rw [getProp_setProp_ne _ _ _ _ hne]
        exact h0

/-- The registry loader never produces a dot-prefixed key (and since every
nested directory subtree is itself a `createJsonObjectTree` result, this
holds at every level of the loaded tree). -/
theorem createJsonObjectTree_no_dot (parse : String → Option JVal)
    (entries : List (String × FSEntry)) (n : String)
    (hdot : startsWithDot n = true) :
    getProp (createJsonObjectTree parse entries) n = none :=
  jsonTreeGo_no_dot parse entries [] n hdot rfl

theorem fileTreeFold_preserve (parse : String → Option JVal) :
    ∀ (entries : List (String × FSEntry)) (acc : List (String × JVal)) (n : String),
    n ∉ entries.map Prod.fst →
    getProp (entries.foldl (fileTreeStep parse) acc) n = getProp acc n
  | [], _, _, _ => rfl
  | (item, e) :: rest, acc, n, hout => by
    simp only [List.map_cons, List.mem_cons, not_or] at hout
    simp only [List.foldl_cons]
    rw [fileTreeFold_preserve parse rest _ n hout.2]
    cases e with
    | file c => exact getProp_setProp_ne _ _ _ _ hout.1
    | dir sub =>
      simp only [fileTreeStep]
      cases hs : (createJsonObjectTree parse sub).isEmpty with
      | true => simp
      | false =>
        simp only [Bool.false_eq_true, if_false]
        exact getProp_setProp_ne _ _ _ _ hout.1

theorem createFileTree_file_mem (parse : String → Option JVal) :
    ∀ (entries : List (String × FSEntry)) (acc : List (String × JVal))
      (n : String) (c : String),
    (entries.map Prod.fst).Nodup → (n, FSEntry.file c) ∈ entries →
    getProp (entries.foldl (fileTreeStep parse) acc) n = some (.str c)
  | [], _, _, _, _, hmem => by simp at hmem
  | (item, e) :: rest, acc, n, c, hnd, hmem => by
    simp only [List.map_cons, List.nodup_cons] at hnd
    rcases List.mem_cons.mp hmem with h1 | h1
    · rw [Prod.mk.injEq] at h1
      obtain ⟨h2, h3⟩ := h1
      subst h2
      simp only [List.foldl_cons]
      rw [fileTreeFold_preserve parse rest _ n hnd.1, ← h3]
      simp only [fileTreeStep]
      exact getProp_setProp_self _ _ _
    · simp only [List.foldl_cons]
      exact createFileTree_file_mem parse rest _ n c hnd.2 h1

theorem createFileTree_dir_mem (parse : String → Option JVal) :
    ∀ (entries : List (String × FSEntry)) (acc : List (String × JVal))
      (n : String) (sub : List (String × FSEntry)),
    (entries.map Prod.fst).Nodup → (n, FSEntry.dir sub) ∈ entries →
    (createJsonObjectTree parse sub).isEmpty = false →
    getProp (entries.foldl (fileTreeStep parse) acc) n =
      some (.obj (createJsonObjectTree parse sub))
  | [], _, _, _, _, hmem, _ => by simp at hmem
  | (item, e) :: rest, acc, n, sub, hnd, hmem, hne => by
    simp only [List.map_cons, List.nodup_cons] at hnd
    rcases List.mem_cons.mp hmem with h1 | h1
    · rw [Prod.mk.injEq] at h1
      obtain ⟨h2, h3⟩ := h1
      subst h2
      simp only [List.foldl_cons]
      rw [fileTreeFold_preserve parse rest _ n hnd.1, ← h3]
      simp only [fileTreeStep, hne, Bool.false_eq_true, if_false]
      exact getProp_setProp_self _ _ _
    · simp only [List.foldl_cons]
      exact createFileTree_dir_mem parse rest _ n sub hnd.2 h1 hne

/-- The two filenames emitted at one builder step always differ:
`--from-` versus `--last-`. -/
theorem fromFileName_ne_lastFileName (p y : String) (i : Nat) :
    fromFileName p y ≠ lastFileName p i := by
  intro h
  have hd := congrArg String.data h
  simp only [fromFileName, lastFileName, String.data_append, List.append_assoc] at hd
  have h2 := List.append_cancel_left hd
  have h3 := List.append_cancel_left h2
  simp only [List.cons_append, List.cons.injEq] at h3
  exact absurd h3.2.2.1 (by decide)

/-! ## Claim C1

The claim's registry puts years directly under the platform directory
(`webkit/2023/classes.json`).  Traced through the three pivots, such a tree
is destroyed: the pivot cascade is only coherent for a four-level registry
`<platform>/<vendor>/<year>/<group>.json` (the vendor submodules of the
contributor guide), where the `k2 === "values.json"` comparison actually
meets group filenames.  On the claim's registry the run produces
`platform/webkit--from-classes.json.json` containing `{}` and no
`platform/webkit--from-2024.json` at all. -/

/-- The registry of the claim, taken literally (three levels). -/
def c1ClaimTree : JObj :=
  [("webkit", .obj [
    ("2023", .obj [("classes.json", .obj [("foo", .str "-webkit-foo")])]),
    ("2024", .obj [("classes.json", .obj [("bar", .str "-webkit-bar")])])])]

/-- The same data with the vendor level the pipeline actually expects:
`registry/browser/webkit/<year>/<group>.json`. -/
def c1VendorTree : JObj :=
  [("browser", .obj [
    ("webkit", .obj [
      ("2023", .obj [("classes.json", .obj [("foo", .str "-webkit-foo")])]),
      ("2024", .obj [("classes.json", .obj [("bar", .str "-webkit-bar")])])])])]

/-- C1 counterexample: on the claim's literal registry the run succeeds but
produces neither `platform/webkit--from-2024.json` nor
`platform/webkit--from-2023.json`; the only `from`-anchored file is keyed by
the group filename (`platform/webkit--from-classes.json.json`), mapping to
`"{}"`. -/
theorem c1_claim_registry_fails :
    ∃ ff im, runPipeline c1ClaimTree [] = .ok (ff, im) ∧
      getProp ff "platform/webkit--from-2024.json" = none ∧
      getProp ff "platform/webkit--from-2023.json" = none ∧
      getProp ff "platform/webkit--from-classes.json.json" = some (.str "\x7b\x7d") :=
  ⟨_, _, rfl, rfl, rfl, rfl⟩

/-- C1 amended: with the vendor directory level in place
(`browser/webkit/<year>/classes.json`), one run produces the two cumulative
snapshots (prefix values nested under the vendor key) and the manifest
entries the claim describes, under platform key `browser`. -/
theorem c1_vendor_registry_pipeline :
    ∃ ff im, runPipeline c1VendorTree [] = .ok (ff, im) ∧
      getProp ff "platform/browser--from-2024.json" =
        some (.str "\x7b\"classes\":\x7b\"bar\":\x7b\"webkit\":\"-webkit-bar\"\x7d\x7d\x7d") ∧
      getProp ff "platform/browser--from-2023.json" =
        some (.str "\x7b\"classes\":\x7b\"bar\":\x7b\"webkit\":\"-webkit-bar\"\x7d,\"foo\":\x7b\"webkit\":\"-webkit-foo\"\x7d\x7d\x7d") ∧
      (∃ fromMap lastMap,
        getProp im "browser" =
          some (.obj [("from", .obj fromMap), ("last", .obj lastMap)]) ∧
        getProp fromMap "2023" = some (.str "platform/browser--from-2023.json") ∧
        getProp fromMap "2024" = some (.str "platform/browser--from-2024.json")) :=
  ⟨_, _, rfl, rfl, rfl, _, _, rfl, rfl, rfl⟩

/-! ## Claim C2 -/

/-- C2: on any successful run, every platform entry of the loaded registry
tree gets a manifest entry whose `from` sub-mapping has a binding for every
inner key of every object-like child of the platform value (for the real
registry shape `platform → vendor → year → ...` these inner keys are exactly
the years present under the platform), and whose `last` sub-mapping has
exactly one entry per distinct inner key (`(inverseNestedObject pv).length`
is that count, since the pivot has one key per distinct year). -/
theorem c2_manifest_completeness
    {tree : JObj} {site ff : List (String × JVal)} {im : JObj}
    (hrun : runPipeline tree site = .ok (ff, im))
    (hnd : (keysOf tree).Nodup)
    {p : String} {pv : JVal} (hp : getProp tree p = some pv) :
    ∃ fromMap lastMap,
      getProp im p = some (.obj [("from", .obj fromMap), ("last", .obj lastMap)]) ∧
      (∀ k1 w y, (k1, w) ∈ enumEntries pv → jsObjLike w = true →
        y ∈ enumKeys w → (getProp fromMap y).isSome) ∧
      lastMap.length = (inverseNestedObject pv).length := by
  obtain ⟨ws, hba⟩ := runPipeline_ok_buildAll hrun
  have hsw := switchedOf_eq_map hnd
  have hmem : (p, pv) ∈ tree := mem_of_getProp_some hp
  have hmem2 : (p, JVal.obj (switchedLevel1 pv)) ∈ switchedOf tree := by
    rw [hsw]
    exact List.mem_map_of_mem _ hmem
  have hkeq : keysOf (switchedOf tree) = keysOf tree := by
    rw [hsw]
    simp [keysOf, List.map_map, Function.comp]
  have hndsw : (keysOf (switchedOf tree)).Nodup := by rw [hkeq]; exact hnd
  rw [buildAll] at hba
  obtain ⟨st, hplat, him⟩ :=
    buildFold_main (switchedOf tree) ([], []) im ws hba hndsw p _ hmem2
  refine ⟨st.fromMap, st.lastMap, him, ?_, ?_⟩
  all_goals
    rw [platBuild] at hplat
    obtain ⟨hf, hl⟩ := platFold_maps _ _ _ hplat
  · intro k1 w y hmem3 ho hy
    have hy2 : y ∈ keysOf (inverseNestedObject pv) :=
      keysOf_invOuter_establish (enumEntries pv) [] hmem3 ho hy
    have hy3 : y ∈ enumKeys (JVal.obj (switchedLevel1 pv)) := by
      show y ∈ keysOf (switchedLevel1 pv)
      rw [keysOf_switchedLevel1]
      exact hy2
    have hy4 : y ∈ (enumKeys (JVal.obj (switchedLevel1 pv))).reverse :=
      List.mem_reverse.mpr hy3
    have hy5 : ∃ iy ∈ (enumKeys (JVal.obj (switchedLevel1 pv))).reverse.enum,
        (iy : Nat × String).2 = y := by
      obtain ⟨iy, hiy, hsnd⟩ := List.mem_map.mp
        (by rw [List.enum_map_snd]; exact hy4 :
          y ∈ ((enumKeys (JVal.obj (switchedLevel1 pv))).reverse.enum.map Prod.snd))
      exact ⟨iy, hiy, hsnd⟩
    rw [hf]
    exact getProp_isSome_of_mem_keysOf
      (mem_keysOf_fromFold _ _ _ _ (Or.inl hy5))
  · rw [hl]
    have hinit : ({ o1 := [], fromMap := [], lastMap := [], writes := [] }
        : PlatState).lastMap = ([] : JObj) := rfl
    rw [hinit]
    have hlen := length_lastFold p
      (enumKeys (JVal.obj (switchedLevel1 pv))).reverse 0 []
      (by intro s hs; simp [keysOf] at hs)
    rw [← List.enum_eq_enumFrom] at hlen
    rw [hlen]
    have h5 : enumKeys (JVal.obj (switchedLevel1 pv)) =
        keysOf (inverseNestedObject pv) := by
      show keysOf (switchedLevel1 pv) = _
      exact keysOf_switchedLevel1 pv
    rw [h5]
    simp [keysOf]

/-- A concrete registry for instantiating the manifest-completeness theorem:
one platform, one vendor, two years. -/
def c2WitTree : JObj :=
  [("browser", .obj [
    ("moz", .obj [
      ("2022", .obj [("elements.json", .obj [("e", .str "-moz-e")])]),
      ("2023", .obj [("classes.json", .obj [("c", .str "-moz-c")])])])])]

/-- The platform value of `c2WitTree`. -/
def c2WitPlat : JVal :=
  .obj [
    ("moz", .obj [
      ("2022", .obj [("elements.json", .obj [("e", .str "-moz-e")])]),
      ("2023", .obj [("classes.json", .obj [("c", .str "-moz-c")])])])]

/-- The run of the pipeline on `c2WitTree`. -/
def c2WitRun : Except String (List (String × JVal) × JObj) :=
  runPipeline c2WitTree []

/-- The file map of the witness run. -/
def c2WitFf : List (String × JVal) :=
  match c2WitRun with | .ok r => r.1 | .error _ => []

/-- The manifest of the witness run. -/
def c2WitIm : JObj :=
  match c2WitRun with | .ok r => r.2 | .error _ => []

theorem c2_manifest_completeness_witness :
    ∃ fromMap lastMap,
      getProp c2WitIm "browser" =
        some (.obj [("from", .obj fromMap), ("last", .obj lastMap)]) ∧
      (∀ k1 w y, (k1, w) ∈ enumEntries c2WitPlat → jsObjLike w = true →
        y ∈ enumKeys w → (getProp fromMap y).isSome) ∧
      lastMap.length = (inverseNestedObject c2WitPlat).length :=
  @c2_manifest_completeness c2WitTree [] c2WitFf c2WitIm rfl (by decide)
    "browser" c2WitPlat rfl

/-! ## Claim C3 -/

/-- C3: every successful builder step appends exactly two writes, the
`from`-anchored file and the `last`-anchored file of that step, carrying
identical serialized content; only the filenames differ (and they always
do differ). -/
theorem c3_step_writes_identical {platform : String} {years : JVal}
    {st st2 : PlatState} {iy : Nat × String}
    (h : platStep platform years st iy = .ok st2) :
    ∃ content,
      st2.writes = st.writes ++
        [(fromFileName platform iy.2, content),
         (lastFileName platform iy.1, content)] ∧
      fromFileName platform iy.2 ≠ lastFileName platform iy.1 := by
  obtain ⟨yv, renamed, hm, hr, rfl⟩ := platStep_ok h
  exact ⟨_, rfl, fromFileName_ne_lastFileName platform iy.2 iy.1⟩

/-- A concrete year object for the C3 witness. -/
def c3Years : JVal :=
  .obj [("2024", .obj [("classes.json", .obj [("a", .str "b")])])]

/-- The concrete builder step of the C3 witness. -/
def c3Res : Except String PlatState :=
  platStep "w" c3Years { o1 := [], fromMap := [], lastMap := [], writes := [] }
    (0, "2024")

/-- The state after the concrete builder step. -/
def c3St : PlatState :=
  match c3Res with
  | .ok st => st
  | .error _ => { o1 := [], fromMap := [], lastMap := [], writes := [] }

theorem c3_step_writes_identical_witness :
    ∃ content,
      c3St.writes =
        ({ o1 := [], fromMap := [], lastMap := [], writes := [] }
          : PlatState).writes ++
        [(fromFileName "w" "2024", content), (lastFileName "w" 0, content)] ∧
      fromFileName "w" "2024" ≠ lastFileName "w" 0 :=
  @c3_step_writes_identical "w" c3Years
    { o1 := [], fromMap := [], lastMap := [], writes := [] }
    c3St (0, "2024") rfl

/-! ## Claim C4

The group-rename `reduce` callback returns its accumulator only inside
`if (filemaps[group])`; on an unknown group it falls through and returns
`undefined`.  A known group processed after an unknown one then evaluates
`undefined[...] = v2` and throws, aborting the whole run; an unknown group
in final position makes the reduce return `undefined`, so `deepMerge`
receives `undefined` and the entire year (its known groups included) is
dropped.  Either way the claim's behavior — drop only the unknown group,
keep the rest, continue without error — does not occur. -/

/-- A registry whose single year contains an unknown group file sorted
before a known one. -/
def c4Tree : JObj :=
  [("browser", .obj [("webkit", .obj [("2024", .obj [
    ("aaa.json", .obj [("x", .str "v")]),
    ("classes.json", .obj [("y", .str "w")])])])])]

/-- C4: evaluating the code at the failing inputs.  With the unknown group
first, the rename reduce throws the `TypeError` (and so does the whole
pipeline); with the unknown group last, the reduce returns `undefined`
(`none`), discarding the known group's renamed entry as well. -/
theorem c4_unknown_group_not_dropped_silently :
    renameReduce [("aaa.json", JVal.obj [("x", JVal.str "v")]),
                  ("classes.json", JVal.obj [("y", JVal.str "w")])] =
      .error undefinedSetError ∧
    renameReduce [("classes.json", JVal.obj [("y", JVal.str "w")]),
                  ("zzz.json", JVal.obj [("x", JVal.str "v")])] = .ok none ∧
    runPipeline c4Tree [] = .error undefinedSetError :=
  ⟨rfl, rfl, rfl⟩

/-! ## Claim C5 -/

/-- The innermost reduce as the spec describes it for the `values` group:
every `v3` gets the extra pivot. -/
def switchedLevel3ExtraPivot (v2 : JVal) : JObj :=
  foldSet (fun _ v3 => .obj (inverseNestedObject v3)) [] (inverseNestedObject v2)

/-- The innermost reduce as the spec describes it for every other group:
`v3` is passed through unchanged. -/
def switchedLevel3Generic (v2 : JVal) : JObj :=
  foldSet (fun _ v3 => v3) [] (inverseNestedObject v2)

/-- C5: the extra (fourth) pivot is applied exactly under the key
`values.json` — for that key every innermost value is pivoted once more,
and for every other key the innermost values pass through unchanged. -/
theorem c5_extra_pivot_exactly_values :
    (∀ v2, switchedLevel3 "values.json" v2 = switchedLevel3ExtraPivot v2) ∧
    (∀ k2 v2, k2 ≠ "values.json" → switchedLevel3 k2 v2 = switchedLevel3Generic v2) := by
  constructor
  · intro v2
    simp [switchedLevel3, switchedLevel3ExtraPivot]
  · intro k2 v2 h
    simp [switchedLevel3, switchedLevel3Generic, h]

theorem c5_extra_pivot_exactly_values_witness :
    switchedLevel3 "values.json" (JVal.obj [("a", JVal.obj [("b", JVal.str "c")])]) =
      switchedLevel3ExtraPivot (JVal.obj [("a", JVal.obj [("b", JVal.str "c")])]) ∧
    switchedLevel3 "classes.json" (JVal.obj [("a", JVal.obj [("b", JVal.str "c")])]) =
      switchedLevel3Generic (JVal.obj [("a", JVal.obj [("b", JVal.str "c")])]) :=
  ⟨c5_extra_pivot_exactly_values.1 _,
   c5_extra_pivot_exactly_values.2 _ _ (by decide)⟩

/-! ## Claim C6 -/

theorem eq_of_mem_of_nodup_keys {l : List (String × JVal)} {k : String}
    {v w : JVal} (hnd : (keysOf l).Nodup) (h1 : (k, v) ∈ l) (h2 : (k, w) ∈ l) :
    v = w := by
  induction l with
  | nil => simp at h1
  | cons e rest ih =>
    obtain ⟨k0, v0⟩ := e
    simp only [keysOf, List.map_cons, List.nodup_cons] at hnd
    rcases List.mem_cons.mp h1 with ha | ha <;>
      rcases List.mem_cons.mp h2 with hb | hb
    · rw [Prod.mk.injEq] at ha hb
      rw [ha.2, hb.2]
    · rw [Prod.mk.injEq] at ha
      obtain ⟨hk, _⟩ := ha
      subst hk
      exact absurd (by simpa using List.mem_map_of_mem Prod.fst hb) hnd.1
    · rw [Prod.mk.injEq] at hb
      obtain ⟨hk, _⟩ := hb
      subst hk
      exact absurd (by simpa using List.mem_map_of_mem Prod.fst ha) hnd.1
    · exact ih (by simpa [keysOf] using hnd.2) ha hb

/-- C6 counterexample: an array value at the outer level is NOT skipped —
`typeof [] === 'object'` and `[] !== null`, so the `for...in` over the array
enumerates its indices.  `inverseNestedObject({a: [5]})` is `{"0": {a: 5}}`,
not `{}` as the claim ("arrays ... skipped ... contribute nothing")
predicts. -/
theorem c6_arrays_not_skipped :
    inverseNestedObject (JVal.obj [("a", JVal.arr [JVal.num 5])]) =
      [("0", JVal.obj [("a", JVal.num 5)])] ∧
    inverseNestedObject (JVal.obj [("a", JVal.arr [JVal.num 5])]) ≠ [] := by
  refine ⟨rfl, ?_⟩
  intro h
  rw [show inverseNestedObject (JVal.obj [("a", JVal.arr [JVal.num 5])]) =
      [("0", JVal.obj [("a", JVal.num 5)])] from rfl] at h
  cases h

/-- C6 amended: for every two-level input object with duplicate-free keys,
each `(outer, inner)` pair whose outer value is object-like (an object or an
array — not `null`, not a scalar) satisfies
`output[inner][outer] = input[outer][inner]`; and an outer key whose value
is `null` or a scalar is skipped with a diagnostic and contributes nothing
to the output. -/
theorem c6_pivot_characterization {o : JObj}
    (hnd : (keysOf o).Nodup)
    (hinner : ∀ k1 l2, (k1, l2) ∈ o → jsObjLike l2 = true →
      (keysOf (enumEntries l2)).Nodup) :
    (∀ k1 l2 k2 v, (k1, l2) ∈ o → jsObjLike l2 = true →
      (k2, v) ∈ enumEntries l2 →
      ∃ fields, getProp (inverseNestedObject (.obj o)) k2 = some (.obj fields) ∧
        getProp fields k1 = some v) ∧
    (∀ k1 l2, (k1, l2) ∈ o → jsObjLike l2 = false →
      ∀ k2 fields, getProp (inverseNestedObject (.obj o)) k2 = some (.obj fields) →
        getProp fields k1 = none) := by
  constructor
  · intro k1 l2 k2 v hmem ho hin
    exact invOuter_main o [] hnd hmem ho (hinner k1 l2 hmem ho) hin
  · intro k1 l2 hmem ho k2 fields hk
    refine @noInner_invOuter k1 o []
      (fun _ _ h => Option.noConfusion h) ?_ k2 fields hk
    intro p hp hpk
    have hpl : p = (p.1, p.2) := rfl
    rw [hpl, hpk] at hp
    have h2 : p.2 = l2 := eq_of_mem_of_nodup_keys hnd hp hmem
    rw [h2]
    exact ho

theorem c6_pivot_characterization_witness :
    ∃ fields,
      getProp (inverseNestedObject (JVal.obj
        [("a", JVal.obj [("x", JVal.str "1")]), ("b", JVal.num 2)])) "x" =
        some (JVal.obj fields) ∧
      getProp fields "a" = some (JVal.str "1") :=
  (@c6_pivot_characterization
    [("a", JVal.obj [("x", JVal.str "1")]), ("b", JVal.num 2)]
    (by decide)
    (by
      intro k1 l2 hmem ho
      simp only [List.mem_cons, List.not_mem_nil, or_false, Prod.mk.injEq] at hmem
      rcases hmem with ⟨h1, h2⟩ | ⟨h1, h2⟩ <;> subst h2 <;> decide)).1
    "a" (JVal.obj [("x", JVal.str "1")]) "x" (JVal.str "1")
    (by simp) rfl (by simp [enumEntries])

/-! ## Claim C7 -/

theorem nodup_inner_of_flat :
    ∀ (o : List (String × JVal)), (flatKeys o).Nodup →
    ∀ e ∈ o, (keysOf (enumEntries (e : String × JVal).2)).Nodup
  | [], _, e, hmem => by simp at hmem
  | e0 :: rest, hnd, e, hmem => by
    simp only [flatKeys, List.flatMap_cons] at hnd
    rcases List.mem_cons.mp hmem with h1 | h1
    · subst h1
      exact (List.nodup_append.mp hnd).1
    · exact nodup_inner_of_flat rest (List.nodup_append.mp hnd).2.1 e h1

/-- C7 counterexample: `{a: {}}` is a two-level mapping with (vacuously)
globally unique inner keys, but pivoting drops the outer key with the empty
inner mapping, so pivoting twice yields `{}`, not the original. -/
theorem c7_empty_inner_not_restored :
    inverseNestedObject (JVal.obj
      (inverseNestedObject (JVal.obj [("a", JVal.obj [])]))) = [] ∧
    ([] : JObj) ≠ [("a", JVal.obj [])] := by
  refine ⟨rfl, ?_⟩
  intro h
  cases h

/-- C7 amended: for a two-level object with duplicate-free outer keys, whose
values are all NON-EMPTY objects, and whose inner keys are globally unique,
pivoting twice restores the original object exactly (same bindings in the
same order). -/
theorem c7_double_pivot_involution {o : JObj}
    (hnd : (keysOf o).Nodup)
    (hshape : ∀ e ∈ o, ∃ fs, (e : String × JVal).2 = JVal.obj fs ∧ fs ≠ [])
    (hglob : (flatKeys o).Nodup) :
    inverseNestedObject (.obj (inverseNestedObject (.obj o))) = o := by
  have hobj : ∀ e ∈ o, ∃ fs, (e : String × JVal).2 = JVal.obj fs :=
    fun e he => (hshape e he).imp (fun fs h => h.1)
  rw [inverse_eq_pairBlocks hobj hglob]
  have hshape2 : ∀ e ∈ o, ∃ fs, (e : String × JVal).2 = JVal.obj fs ∧
      fs ≠ [] ∧ (keysOf fs).Nodup := by
    intro e he
    obtain ⟨fs, hfs, hne⟩ := hshape e he
    refine ⟨fs, hfs, hne, ?_⟩
    have h2 := nodup_inner_of_flat o hglob e he
    rw [hfs] at h2
    exact h2
  have h3 := invOuter_pairBlocks o [] hnd (by simp [keysOf]) hshape2
  simpa [inverseNestedObject, enumEntries] using h3

theorem c7_double_pivot_involution_witness :
    inverseNestedObject (JVal.obj (inverseNestedObject (JVal.obj
      [("a", JVal.obj [("x", JVal.num 1)]), ("b", JVal.obj [("y", JVal.num 2)])]))) =
      [("a", JVal.obj [("x", JVal.num 1)]), ("b", JVal.obj [("y", JVal.num 2)])] :=
  @c7_double_pivot_involution
    [("a", JVal.obj [("x", JVal.num 1)]), ("b", JVal.obj [("y", JVal.num 2)])]
    (by decide)
    (by
      intro e hmem
      simp only [List.mem_cons, List.not_mem_nil, or_false] at hmem
      rcases hmem with h1 | h1 <;> subst h1 <;>
        exact ⟨_, rfl, by simp⟩)
    (by decide)

/-! ## Claim C8 -/

/-- C8: the per-key contract of `deepMerge` — at every key the result is the
spec's per-key rule (`mergeKeyRule`: recursive merge when both values are
non-array objects, the source value when only it is, outright replacement
otherwise, arrays included); the three concrete examples of the claim; and
multiple sources fold left-to-right into the target. -/
theorem c8_deepmerge_contract :
    (∀ (t : JObj) (s : List (String × JVal)), (keysOf s).Nodup → ∀ k,
      getProp (deepMergeEntries t s) k =
        (match getProp s k with
         | some sv => some (mergeKeyRule t k sv)
         | none => getProp t k)) ∧
    deepMergeV [("a", JVal.num 1)] (JVal.obj [("a", JVal.num 2)]) =
      [("a", JVal.num 2)] ∧
    deepMergeV [("a", JVal.obj [("x", JVal.num 1)])]
        (JVal.obj [("a", JVal.obj [("y", JVal.num 2)])]) =
      [("a", JVal.obj [("x", JVal.num 1), ("y", JVal.num 2)])] ∧
    deepMergeV [("a", JVal.arr [JVal.num 1, JVal.num 2])]
        (JVal.obj [("a", JVal.arr [JVal.num 3])]) =
      [("a", JVal.arr [JVal.num 3])] ∧
    (∀ (t : JObj) (sources : List JVal),
      deepMergeMany t sources = sources.foldl deepMergeV t) :=
  ⟨fun t s hnd k => deepMergeEntries_getProp s t hnd k, rfl, rfl, rfl,
   fun t ss => deepMergeMany_eq_foldl ss t⟩

theorem c8_deepmerge_contract_witness :
    getProp (deepMergeEntries [("a", JVal.num 1)]
        [("a", JVal.num 2), ("b", JVal.num 3)]) "b" =
      (match getProp [("a", JVal.num 2), ("b", JVal.num 3)] "b" with
       | some sv => some (mergeKeyRule [("a", JVal.num 1)] "b" sv)
       | none => getProp [("a", JVal.num 1)] "b") :=
  c8_deepmerge_contract.1 [("a", JVal.num 1)]
    [("a", JVal.num 2), ("b", JVal.num 3)] (by decide) "b"

/-! ## Claim C9 -/

/-- C9 counterexample: a string source is a scalar, yet `for...in` over a
(boxed) string primitive enumerates its character indices, so
`deepMerge({}, "a")` adds the key `"0"` — the target is modified. -/
theorem c9_string_source_modifies_target :
    deepMergeV [] (JVal.str "a") = [("0", JVal.str "a")] ∧
    deepMergeV [] (JVal.str "a") ≠ [] := by
  refine ⟨rfl, ?_⟩
  intro h
  rw [show deepMergeV [] (JVal.str "a") = [("0", JVal.str "a")] from rfl] at h
  cases h

/-- C9 amended: `deepMerge(t, s)` returns `t` with no key added, removed or
modified when `s` is `undefined` (as produced by the group-rename reduce on
unknown keys), `null`, a boolean, or a number; but NOT for every non-object
`s`: a string source is enumerated by character index and an array source by
element index, each merged in as keys. -/
theorem c9_nonobject_sources (t : JObj) :
    deepMergeOpt t none = t ∧
    deepMergeV t JVal.null = t ∧
    (∀ b, deepMergeV t (JVal.bool b) = t) ∧
    (∀ n, deepMergeV t (JVal.num n) = t) :=
  ⟨rfl, rfl, fun _ => rfl, fun _ => rfl⟩

/-! ## Claim C10 -/

/-- C10: the site-asset loader `createFileTree` applies no hidden-entry
filter at its top level — a dot-prefixed file is included with its content
verbatim, and a dot-prefixed directory is included as its parsed-JSON
subtree when that subtree is non-empty — whereas the registry loader
`createJsonObjectTree` never yields a dot-prefixed key (at any level, since
every nested subtree is itself a `createJsonObjectTree` result). -/
theorem c10_hidden_filter_difference {parse : String → Option JVal}
    {entries : List (String × FSEntry)} {n : String}
    (hdot : startsWithDot n = true) :
    (∀ c, (entries.map Prod.fst).Nodup → (n, FSEntry.file c) ∈ entries →
      getProp (createFileTree parse entries) n = some (.str c)) ∧
    (∀ sub, (entries.map Prod.fst).Nodup → (n, FSEntry.dir sub) ∈ entries →
      (createJsonObjectTree parse sub).isEmpty = false →
      getProp (createFileTree parse entries) n =
        some (.obj (createJsonObjectTree parse sub))) ∧
    getProp (createJsonObjectTree parse entries) n = none := by
  refine ⟨?_, ?_, createJsonObjectTree_no_dot parse entries n hdot⟩
  · intro c hnd hmem
    exact createFileTree_file_mem parse entries [] n c hnd hmem
  · intro sub hnd hmem hne
    exact createFileTree_dir_mem parse entries [] n sub hnd hmem hne

/-- A concrete parse function for the C10 witness. -/
def c10Parse : String → Option JVal := fun s => some (.str s)

/-- A concrete directory for the C10 witness: a dot-file, a dot-directory
with one JSON file, and a plain file. -/
def c10Entries : List (String × FSEntry) :=
  [(".hidden", .file "secret"),
   (".cfg", .dir [("a.json", .file "1")]),
   ("index.js", .file "code")]

theorem c10_hidden_filter_difference_witness :
    getProp (createFileTree c10Parse c10Entries) ".hidden" =
      some (JVal.str "secret") ∧
    getProp (createFileTree c10Parse c10Entries) ".cfg" =
      some (JVal.obj (createJsonObjectTree c10Parse [("a.json", .file "1")])) ∧
    getProp (createJsonObjectTree c10Parse c10Entries) ".hidden" = none :=
  ⟨(@c10_hidden_filter_difference c10Parse c10Entries ".hidden"
      (by decide)).1 "secret" (by decide) (by simp [c10Entries]),
   (@c10_hidden_filter_difference c10Parse c10Entries ".cfg"
      (by decide)).2.1 [("a.json", .file "1")] (by decide)
      (by simp [c10Entries]) rfl,
   (@c10_hidden_filter_difference c10Parse c10Entries ".hidden"
      (by decide)).2.2⟩

end XcssVendor
